import Mathlib

/-!
Verification of the CV-parser normalization pipeline (`index.js`).

The development shallowly embeds the deterministic core of the pipeline:
field validators (URL, email, country code, date), the fuzzy categorical
matcher with its synonym table, the record validator with its correction
log, the interval merger computing total work months, the inference
engine (years of experience, desired locations, position type), and the
functional-expertise merge.

JavaScript dynamic values are modelled by `JSVal`; JS string methods
(`trim`, `toLowerCase`, `includes`, `startsWith`, `padStart`) are
modelled by executable functions over character lists. Dates are
modelled at calendar-month granularity (`YM`, with the 0-based month of
JS `Date.getMonth`), which is exactly the granularity at which the
source compares and subtracts dates built from `"YYYY-MM-01"` strings.

The closed option sets live in `formOptions.js`, which is configuration
outside the analysed source; they are modelled from the spec (and from
the option values that the source itself mentions: the extraction
prompt's category lists and the inference keyword outputs). Each such
definition is marked `Modelled from the spec:`.
-/

namespace CVSpec

/-- A dynamically typed JavaScript value, as far as the pipeline inspects
them: `null`/`undefined`, strings, numbers, booleans, and opaque
array/object values (never inspected by the validators, only relevant
through truthiness and `typeof`). -/
inductive JSVal where
  | null
  | undef
  | str (s : String)
  | num (n : Int)
  | bool (b : Bool)
  | arrv
  | objv
deriving DecidableEq, Repr

/-- JS truthiness of a `JSVal` (`if (v)`). -/
def JSVal.truthy : JSVal → Bool
  | .null => false
  | .undef => false
  | .str s => s ≠ ""
  | .num n => n ≠ 0
  | .bool b => b
  | .arrv => true
  | .objv => true

/-- Whitespace characters removed by `String.prototype.trim` (ASCII part). -/
def wsChar (c : Char) : Bool :=
  c = ' ' || c = '\t' || c = '\n' || c = '\r'

/-- ASCII lower-casing of one character (model of JS `toLowerCase`). -/
def lowerChar (c : Char) : Char :=
  match c with
  | 'A' => 'a' | 'B' => 'b' | 'C' => 'c' | 'D' => 'd' | 'E' => 'e' | 'F' => 'f'
  | 'G' => 'g' | 'H' => 'h' | 'I' => 'i' | 'J' => 'j' | 'K' => 'k' | 'L' => 'l'
  | 'M' => 'm' | 'N' => 'n' | 'O' => 'o' | 'P' => 'p' | 'Q' => 'q' | 'R' => 'r'
  | 'S' => 's' | 'T' => 't' | 'U' => 'u' | 'V' => 'v' | 'W' => 'w' | 'X' => 'x'
  | 'Y' => 'y' | 'Z' => 'z'
  | other => other

/-- Model of `String.prototype.toLowerCase`. -/
def jsLower (s : String) : String := String.mk (s.toList.map lowerChar)

/-- Both-ends whitespace trimming on character lists. -/
def trimChars (l : List Char) : List Char :=
  ((l.dropWhile wsChar).reverse.dropWhile wsChar).reverse

/-- Model of `String.prototype.trim`. -/
def jsTrim (s : String) : String := String.mk (trimChars s.toList)

/-- `leads pat l` is true when `pat` is an initial segment of `l`. -/
def leads : List Char → List Char → Bool
  | [], _ => true
  | _ :: _, [] => false
  | a :: moreA, b :: moreB => a == b && leads moreA moreB

/-- `hasSeg pat l` is true when `pat` occurs contiguously inside `l`. -/
def hasSeg (pat : List Char) : List Char → Bool
  | [] => pat.isEmpty
  | c :: cs => leads pat (c :: cs) || hasSeg pat cs

/-- Model of `big.includes(small)` on JS strings. -/
def incl (big small : String) : Bool := hasSeg small.toList big.toList

/-- Model of `s.startsWith(pat)` on JS strings. -/
def jsStartsWith (s pat : String) : Bool := leads pat.toList s.toList

/-- Embeds `validateAndCorrectUrl` (index.js:470): trims, returns null on
empty or non-string, prefixes `https://` when no scheme is present. -/
def validateAndCorrectUrl (url : JSVal) : JSVal :=
  match url with
  | .str s =>
    if s = "" then .null
    else
      let trimmed := jsTrim s
      if trimmed = "" then .null
      else if !jsStartsWith trimmed "http://" && !jsStartsWith trimmed "https://" then
        .str ("https://" ++ trimmed)
      else .str trimmed
  | _ => .null

/-- Embeds `validateAndCorrectCountryCode` (index.js:481): trims, returns
null on empty or non-string, prefixes `+` when missing. -/
def validateAndCorrectCountryCode (code : JSVal) : JSVal :=
  match code with
  | .str s =>
    if s = "" then .null
    else
      let trimmed := jsTrim s
      if trimmed = "" then .null
      else if !jsStartsWith trimmed "+" then .str ("+" ++ trimmed)
      else .str trimmed
  | _ => .null

/-- Match of the regex `^(\d{1,2})[\/\-](\d{4})$`, returning the month
digits and the year digits. -/
def matchMonthYear : List Char → Option (List Char × List Char)
  | [m1, sep, y1, y2, y3, y4] =>
    if m1.isDigit && (sep == '/' || sep == '-')
        && y1.isDigit && y2.isDigit && y3.isDigit && y4.isDigit then
      some ([m1], [y1, y2, y3, y4])
    else none
  | [m1, m2, sep, y1, y2, y3, y4] =>
    if m1.isDigit && m2.isDigit && (sep == '/' || sep == '-')
        && y1.isDigit && y2.isDigit && y3.isDigit && y4.isDigit then
      some ([m1, m2], [y1, y2, y3, y4])
    else none
  | _ => none

/-- Match of the regex `^\d{4}-\d{2}$`. -/
def isYYYYMM : List Char → Bool
  | [y1, y2, y3, y4, sep, m1, m2] =>
    y1.isDigit && y2.isDigit && y3.isDigit && y4.isDigit
      && sep == '-' && m1.isDigit && m2.isDigit
  | _ => false

/-- Match of the regex `^\d{4}$`. -/
def isYYYY : List Char → Bool
  | [y1, y2, y3, y4] => y1.isDigit && y2.isDigit && y3.isDigit && y4.isDigit
  | _ => false

/-- Model of `month.padStart(2, '0')` for the 1-or-2 digit month match. -/
def padMonth (m : List Char) : String :=
  if m.length = 1 then String.mk ('0' :: m) else String.mk m

/-- Embeds `validateAndCorrectDate` (index.js:492): normalizes recognized
shapes to `YYYY-MM`, `"present"` to lowercase, and otherwise returns the
trimmed lower-cased input. -/
def validateAndCorrectDate (dateString : JSVal) : JSVal :=
  match dateString with
  | .str s =>
    if s = "" then .null
    else
      let trimmed := jsLower (jsTrim s)
      if trimmed = "" then .null
      else if trimmed = "present" then .str "present"
      else
        match matchMonthYear trimmed.toList with
        | some (m, y) => .str (String.mk y ++ "-" ++ padMonth m)
        | none =>
          if isYYYYMM trimmed.toList then .str trimmed
          else if isYYYY trimmed.toList then .str (trimmed ++ "-01")
          else .str trimmed
  | _ => .null

/-- Character class `[^\s@]` of the email regex. -/
def emailOkChar (c : Char) : Bool := !wsChar c && c != '@'

/-- Split a character list at its first `'@'`, if any. -/
def splitAtAt : List Char → Option (List Char × List Char)
  | [] => none
  | c :: cs =>
    if c == '@' then some ([], cs)
    else
      match splitAtAt cs with
      | some (a, b) => some (c :: a, b)
      | none => none

/-- Match of the regex `^[^\s@]+@[^\s@]+\.[^\s@]+$`: one `@`, a nonempty
local part, and a domain containing a dot that is neither its first nor
its last character. -/
def emailShape (s : String) : Bool :=
  match splitAtAt s.toList with
  | none => false
  | some (a, b) =>
    !a.isEmpty && a.all emailOkChar && b.all emailOkChar
      && (b.drop 1).dropLast.contains '.'

/-- Embeds `validateEmail` (index.js:521): returns the trimmed value when
it matches the conservative email regex, otherwise null. -/
def validateEmail (email : JSVal) : JSVal :=
  match email with
  | .str s =>
    if s = "" then .null
    else if emailShape (jsTrim s) then .str (jsTrim s) else .null
  | _ => .null

/-- A member of a closed option set: either a bare string or a
`{value, label}` pair. -/
inductive FOpt where
  | s (v : String)
  | vl (v l : String)
deriving DecidableEq, Repr

/-- The `value` of an option (`typeof opt === 'string' ? opt : opt.value`). -/
def optValue : FOpt → String
  | .s v => v
  | .vl v _ => v

/-- The value list `optionsArray.map(...).filter(Boolean)`. -/
def optionValues (optionsArray : List FOpt) : List String :=
  (optionsArray.map optValue).filter (fun v => v ≠ "")

/-- Options that take part in label matching: `{value, label}` pairs with
truthy value and label. -/
def isLabelOpt : FOpt → Bool
  | .s _ => false
  | .vl v l => v ≠ "" && l ≠ ""

/-- The label of an option (only used through `isLabelOpt`). -/
def optLabel : FOpt → String
  | .s _ => ""
  | .vl _ l => l

/-- The fixed `commonMappings` synonym table of `fuzzyMatchToOptions`
(index.js:557), transcribed verbatim. -/
def commonMappingsList : List (String × String) :=
  [("usa", "United States"),
   ("uk", "United Kingdom"),
   ("uae", "United Arab Emirates"),
   ("mother tongue", "Native"),
   ("native", "Native"),
   ("native speaker", "Native"),
   ("langue maternelle", "Native"),
   ("muttersprache", "Native"),
   ("full professional proficiency", "Fluent"),
   ("courant", "Fluent"),
   ("fließend", "Fluent"),
   ("professional", "Advanced"),
   ("proficient", "Advanced"),
   ("professional working proficiency", "Intermediate"),
   ("limited working proficiency", "Intermediate"),
   ("conversational", "Intermediate"),
   ("working proficiency", "Intermediate"),
   ("professional working", "Intermediate"),
   ("elementary", "Beginner"),
   ("basic", "Beginner"),
   ("grundkenntnisse", "Beginner"),
   ("notions", "Beginner"),
   ("master of science", "MSc"),
   ("master of arts", "MA"),
   ("master of engineering", "MSc"),
   ("master of law", "MA"),
   ("master of laws", "MA"),
   ("master of business administration", "MBA"),
   ("master of advanced studies", "MAS"),
   ("master of public administration", "MA"),
   ("master of finance", "MSc"),
   ("master of public health", "MSc"),
   ("master of education", "MA"),
   ("bachelor of science", "BSc"),
   ("bachelor of arts", "BA"),
   ("bachelor of engineering", "BSc"),
   ("bachelor of commerce", "BSc"),
   ("bachelor of technology", "BSc"),
   ("bachelor of laws", "BA"),
   ("bachelor of law", "BA"),
   ("llm", "MA"),
   ("llb", "BA"),
   ("mba", "MBA"),
   ("mas", "MAS"),
   ("btech", "BSc"),
   ("mtech", "MSc"),
   ("bcom", "BSc"),
   ("diplom", "MSc"),
   ("diplom-ingenieur", "MSc"),
   ("diplom-kaufmann", "MSc"),
   ("licence", "BA"),
   ("maîtrise", "MSc"),
   ("maitrise", "MSc"),
   ("postgraduate diploma", "Certificate"),
   ("graduate certificate", "Certificate"),
   ("postgraduate certificate", "Certificate"),
   ("doctor of philosophy", "PhD"),
   ("doctor of business administration", "PhD"),
   ("juris doctor", "MA")]

/-- Embeds `fuzzyMatchToOptions` (index.js:528): exact value match, then
bidirectional substring match on values, then on labels, then the
synonym table, else null. -/
def fuzzyMatchToOptions (value : JSVal) (optionsArray : List FOpt) : Option String :=
  match value with
  | .str s =>
    if s = "" then none
    else
      let valueLower := jsTrim (jsLower s)
      let options := optionValues optionsArray
      match options.find? (fun opt => jsLower opt == valueLower) with
      | some exactMatch => some exactMatch
      | none =>
        match options.find? (fun opt =>
            incl (jsLower opt) valueLower || incl valueLower (jsLower opt)) with
        | some partialHit => some partialHit
        | none =>
          match (optionsArray.filter isLabelOpt).find? (fun o =>
              incl (jsLower (optLabel o)) valueLower
                || incl valueLower (jsLower (optLabel o))) with
          | some labelHit => some (optValue labelHit)
          | none => commonMappingsList.lookup valueLower
  | _ => none

/-- Modelled from the spec: `DEGREE_TYPE_OPTIONS` from `formOptions.js`
(configuration outside the analysed source). The spec and the source's
guard/synonym tables name the canonical values AA/AS/AAS (sub-bachelor
tier), BA/BSc, MA/MSc/MBA/MAS, PhD, Certificate; the Associate tier is
listed before the master tier, reproducing the documented
"Master of Accounting vs. Associate" substring mis-route. -/
def DEGREE_TYPE_OPTIONS : List FOpt :=
  [.vl "High School" "High School Diploma",
   .vl "AA" "Associate of Arts (AA)",
   .vl "AS" "Associate of Science (AS)",
   .vl "AAS" "Associate of Applied Science (AAS)",
   .vl "BA" "Bachelor of Arts (BA)",
   .vl "BSc" "Bachelor of Science (BSc)",
   .vl "MA" "Master of Arts (MA)",
   .vl "MSc" "Master of Science (MSc)",
   .vl "MBA" "Master of Business Administration (MBA)",
   .vl "MAS" "Master of Advanced Studies (MAS)",
   .vl "PhD" "Doctorate (PhD)",
   .vl "Certificate" "Certificate / Diploma"]

/-- Modelled from the spec: `COUNTRY_OPTIONS` from `formOptions.js`
(closed country list; representative members). -/
def COUNTRY_OPTIONS : List FOpt :=
  [.vl "Switzerland" "Switzerland",
   .vl "Germany" "Germany",
   .vl "France" "France",
   .vl "United States" "United States",
   .vl "United Kingdom" "United Kingdom",
   .vl "United Arab Emirates" "United Arab Emirates",
   .vl "India" "India"]

/-- Modelled from the spec: `GENERAL_FIELD_OPTIONS` from `formOptions.js`
(broad study-field categories; representative members). -/
def GENERAL_FIELD_OPTIONS : List FOpt :=
  [.vl "Business" "Business",
   .vl "Engineering" "Engineering",
   .vl "Computer Science" "Computer Science",
   .vl "Law" "Law",
   .vl "Natural Sciences" "Natural Sciences",
   .vl "Humanities" "Humanities"]

/-- Modelled from the spec: `POSITION_TYPE_OPTIONS` from `formOptions.js`;
the values are those the source's own inference cascade produces. -/
def POSITION_TYPE_OPTIONS : List FOpt :=
  [.vl "Full-time" "Full-time",
   .vl "Part-time" "Part-time",
   .vl "Internship" "Internship",
   .vl "Freelance / Contractor" "Freelance / Contractor",
   .vl "Volunteer" "Volunteer"]

/-- Modelled from the spec: `LANGUAGE_PROFICIENCY_OPTIONS` from
`formOptions.js`; the values are those the source's prompt rule 18 and
synonym table name. -/
def LANGUAGE_PROFICIENCY_OPTIONS : List FOpt :=
  [.vl "Native" "Native",
   .vl "Fluent" "Fluent",
   .vl "Advanced" "Advanced",
   .vl "Intermediate" "Intermediate",
   .vl "Beginner" "Beginner"]

/-- Modelled from the spec: `SKILL_PROFICIENCY_OPTIONS` from
`formOptions.js` (skill-level tiers; representative closed set). -/
def SKILL_PROFICIENCY_OPTIONS : List FOpt :=
  [.vl "Beginner" "Beginner",
   .vl "Intermediate" "Intermediate",
   .vl "Advanced" "Advanced",
   .vl "Expert" "Expert"]

/-- Modelled from the spec: `DURATION_OPTIONS` from `formOptions.js`
(desired-duration enum; representative members). -/
def DURATION_OPTIONS : List FOpt :=
  [.vl "3" "3 months",
   .vl "6" "6 months",
   .vl "12" "12 months",
   .vl "24" "24 months or more"]

/-- Modelled from the spec: `LOCATION_OPTIONS` from `formOptions.js`
(desired-location enum; representative members). -/
def LOCATION_OPTIONS : List FOpt :=
  [.vl "Zurich" "Zurich",
   .vl "Geneva" "Geneva",
   .vl "Basel" "Basel",
   .vl "Bern" "Bern",
   .vl "Remote" "Remote"]

/-- Modelled from the spec: `INDUSTRY_PREFERENCE_OPTIONS` from
`formOptions.js` (desired-industry enum; representative members). -/
def INDUSTRY_PREFERENCE_OPTIONS : List FOpt :=
  [.vl "Commodities Trading" "Commodities Trading",
   .vl "Energy" "Energy",
   .vl "Banking" "Banking",
   .vl "Technology" "Technology",
   .vl "Consulting" "Consulting"]

/-- Modelled from the spec: `FUNCTIONAL_EXPERTISE_OPTIONS` from
`formOptions.js`; the twelve category values are enumerated verbatim by
the source's extraction prompt (rule 15). -/
def FUNCTIONAL_EXPERTISE_OPTIONS : List String :=
  ["Trading", "Risk Management", "Quantitative Analysis", "Technology",
   "Operations", "Finance", "Leadership", "Legal", "Compliance",
   "Research", "Analytics", "Engineering"]

/-- String interpolation of a `JSVal` into a JS template literal. -/
def JSVal.display : JSVal → String
  | .null => "null"
  | .undef => "undefined"
  | .str s => s
  | .num n => toString n
  | .bool b => if b then "true" else "false"
  | .arrv => ""
  | .objv => "[object Object]"

/-- Embeds `validateFieldValue` (index.js:629): dispatch on the field
name to the URL/email/country-code/date validators, else the fuzzy
matcher when an option set is supplied, else pass-through. -/
def validateFieldValue (fieldName : String) (value : JSVal)
    (optionsArray : List FOpt) : JSVal :=
  if value = .null ∨ value = .undef then .null
  else if fieldName ∈ (["linkedinUrl", "githubUrl", "portfolioUrl", "url"] : List String) then
    validateAndCorrectUrl value
  else if fieldName = "email" then validateEmail value
  else if fieldName = "country_code" then validateAndCorrectCountryCode value
  else if incl (jsLower fieldName) "date" || fieldName = "startDate" || fieldName = "endDate" then
    validateAndCorrectDate value
  else if 0 < optionsArray.length then
    match fuzzyMatchToOptions value optionsArray with
    | some v => .str v
    | none => .null
  else value

/-- A `{name, level}` skill entry; `rest` carries the untouched fields of
the JS object that the `...` spreads preserve. -/
structure SkillEntry where
  name : JSVal
  level : JSVal
  rest : List (String × JSVal)
deriving DecidableEq, Repr

/-- A `base_languages` entry; `proficiency := undef` models a deleted key. -/
structure LangEntry where
  proficiency : JSVal
  rest : List (String × JSVal)
deriving DecidableEq, Repr

/-- A certification entry (validated fields only, rest untouched). -/
structure CertEntry where
  dateObtained : JSVal
  expiryDate : JSVal
  url : JSVal
  rest : List (String × JSVal)
deriving DecidableEq, Repr

/-- An education-history entry (validated fields only, rest untouched). -/
structure EduEntry where
  degreeType : JSVal
  generalField : JSVal
  specificField : JSVal
  country : JSVal
  startDate : JSVal
  endDate : JSVal
  rest : List (String × JSVal)
deriving DecidableEq, Repr

/-- A professional-experience entry (fields the pipeline reads or
writes, rest untouched). -/
structure ExpEntry where
  positionName : JSVal
  positionType : JSVal
  country : JSVal
  startDate : JSVal
  endDate : JSVal
  isCurrent : JSVal
  rest : List (String × JSVal)
deriving DecidableEq, Repr

/-- The candidate record, with one field per slot the validator or the
inference engine touches; `Option` on list fields models the
`Array.isArray` guards (`none` = absent or not an array). -/
structure CandidateRecord where
  linkedinUrl : JSVal
  githubUrl : JSVal
  portfolioUrl : JSVal
  email : JSVal
  country_code : JSVal
  years_of_experience : JSVal
  education_history : Option (List EduEntry)
  professional_experience : Option (List ExpEntry)
  technical_skills : Option (List SkillEntry)
  soft_skills : Option (List SkillEntry)
  base_languages : Option (List LangEntry)
  certifications : Option (List CertEntry)
  desired_duration_months : JSVal
  desired_locations : Option (List JSVal)
  desired_industries : Option (List JSVal)
  rest : List (String × JSVal)
deriving DecidableEq, Repr

/-- One URL field of `validateAndCorrectData`: validate when truthy, log
when the value changed. -/
def urlFieldStep (field : String) (v : JSVal) : JSVal × List String :=
  if v.truthy then
    let corrected := validateAndCorrectUrl v
    (corrected, if corrected ≠ v then ["Added https:// to " ++ field] else [])
  else (v, [])

/-- The email field of `validateAndCorrectData`. -/
def emailFieldStep (v : JSVal) : JSVal × List String :=
  if v.truthy then
    let corrected := validateEmail v
    (corrected,
      if corrected.truthy = false then ["Removed invalid email: " ++ v.display] else [])
  else (v, [])

/-- The country-code field of `validateAndCorrectData`. -/
def ccFieldStep (v : JSVal) : JSVal × List String :=
  if v.truthy then
    let corrected := validateAndCorrectCountryCode v
    (corrected, if corrected ≠ v then ["Added + to country code"] else [])
  else (v, [])

/-- The master-level keywords of the degree-type guard (index.js:706). -/
def masterKeywords : List String :=
  ["master", "msc", "mba", "llm", "maîtrise", "maitrise", "diplom", "mas"]

/-- One education entry of `validateAndCorrectData` (index.js:698-725),
including the Associate/master guard. -/
def eduStep (edu : EduEntry) : EduEntry × List String :=
  let resolvedDegreeType := validateFieldValue "degreeType" edu.degreeType DEGREE_TYPE_OPTIONS
  let guardHit : Option String :=
    match edu.degreeType, resolvedDegreeType with
    | .str raw, .str t =>
      if (t = "AA" ∨ t = "AS" ∨ t = "AAS")
          ∧ masterKeywords.any (fun kw => incl (jsLower raw) kw) then some t
      else none
    | _, _ => none
  let finalDegreeType : JSVal :=
    match guardHit with
    | some _ => .str "MSc"
    | none => resolvedDegreeType
  let msgs : List String :=
    match guardHit with
    | some t => ["Corrected degreeType from " ++ t ++ " to MSc (master-level degree)"]
    | none => []
  ({ edu with
      degreeType := finalDegreeType,
      generalField := validateFieldValue "generalField" edu.generalField GENERAL_FIELD_OPTIONS,
      specificField := match edu.specificField with | .str s => .str (jsTrim s) | _ => .null,
      country := validateFieldValue "country" edu.country COUNTRY_OPTIONS,
      startDate := validateAndCorrectDate edu.startDate,
      endDate := validateAndCorrectDate edu.endDate }, msgs)

/-- One professional-experience entry of `validateAndCorrectData`. -/
def expStep (exp : ExpEntry) : ExpEntry :=
  { exp with
      positionType := validateFieldValue "positionType" exp.positionType POSITION_TYPE_OPTIONS,
      country := validateFieldValue "country" exp.country COUNTRY_OPTIONS,
      startDate := validateAndCorrectDate exp.startDate,
      endDate := validateAndCorrectDate exp.endDate }

/-- Level validation of one skill entry. -/
def skillLevelStep (skill : SkillEntry) : SkillEntry :=
  { skill with level := validateFieldValue "level" skill.level SKILL_PROFICIENCY_OPTIONS }

/-- The fixed disallow-list of domain/business competencies removed from
`soft_skills` (index.js:749). -/
def notSoftSkills : List String :=
  ["project management", "sales", "budgeting", "market analysis",
   "business management", "compliance", "accounting", "financial analysis",
   "business development", "marketing", "operations management",
   "supply chain", "risk management", "data analysis", "quality management"]

/-- Lower-cased trimmed name of a soft skill, `none` when the JS
expression `(skill.name || '').toLowerCase()` would throw (truthy
non-string name). -/
def softSkillNameLower : JSVal → Option String
  | .str s => some (jsTrim (jsLower s))
  | .null => some ""
  | .undef => some ""
  | .num n => if n = 0 then some "" else none
  | .bool b => if b then none else some ""
  | .arrv => none
  | .objv => none

/-- The soft-skill filter of `validateAndCorrectData`: drops blocked
names with a log entry; `none` models the filter callback throwing. -/
def softFilter : List SkillEntry → Option (List SkillEntry × List String)
  | [] => some ([], [])
  | sk :: sks =>
    match softSkillNameLower sk.name with
    | none => none
    | some nameLower =>
      let isBlocked := notSoftSkills.any (fun blocked => nameLower = blocked)
      match softFilter sks with
      | none => none
      | some (kept, msgs) =>
        if isBlocked then
          some (kept,
            ("Removed \"" ++ sk.name.display ++ "\" from soft_skills (domain/business skill)") :: msgs)
        else some (sk :: kept, msgs)

/-- One language entry of `validateAndCorrectData` (index.js:770-779). -/
def langStep (lang : LangEntry) : LangEntry :=
  let validatedProficiency :=
    validateFieldValue "proficiency" lang.proficiency LANGUAGE_PROFICIENCY_OPTIONS
  if validatedProficiency.truthy ∧ validatedProficiency ≠ .str "None" then
    { lang with proficiency := validatedProficiency }
  else { lang with proficiency := .undef }

/-- One certification entry of `validateAndCorrectData`. -/
def certStep (cert : CertEntry) : CertEntry :=
  { cert with
      dateObtained := validateAndCorrectDate cert.dateObtained,
      expiryDate := validateAndCorrectDate cert.expiryDate,
      url := validateAndCorrectUrl cert.url }

/-- The desired-duration field of `validateAndCorrectData`. -/
def durationStep (v : JSVal) : JSVal :=
  if v.truthy then
    match fuzzyMatchToOptions v DURATION_OPTIONS with
    | some s => .str s
    | none => .null
  else v

/-- Element-wise fuzzy matching of a preference list followed by
`.filter(Boolean)`. -/
def prefListStep (opts : List FOpt) (l : List JSVal) : List JSVal :=
  (l.map (fun loc =>
    match fuzzyMatchToOptions loc opts with
    | some s => JSVal.str s
    | none => JSVal.null)).filter JSVal.truthy

/-- Maps a message-producing step over a list, concatenating the
messages in element order. -/
def mapCollect (f : α → β × List String) : List α → List β × List String
  | [] => ([], [])
  | x :: xs =>
    let r := f x
    let rs := mapCollect f xs
    (r.1 :: rs.1, r.2 ++ rs.2)

/-- The education-history section of `validateAndCorrectData`. -/
def eduSectionStep (o : Option (List EduEntry)) : Option (List EduEntry) × List String :=
  match o with
  | none => (none, [])
  | some edus =>
    let r := mapCollect eduStep edus
    (some r.1, r.2)

/-- The soft-skill section of `validateAndCorrectData`; `none` models
the filter callback throwing on a truthy non-string name. -/
def softSectionStep (o : Option (List SkillEntry)) :
    Option (Option (List SkillEntry) × List String) :=
  match o with
  | none => some (none, [])
  | some sks =>
    match softFilter sks with
    | none => none
    | some (kept, msgs) => some (some (kept.map skillLevelStep), msgs)

/-- Embeds `validateAndCorrectData` (index.js:661-813). The result is
`none` exactly when the JS function would throw (a truthy non-string
soft-skill name); otherwise the corrected record and the correction log
in source order. -/
def validateAndCorrectData (extractedData : CandidateRecord) :
    Option (CandidateRecord × List String) :=
  let lu := urlFieldStep "linkedinUrl" extractedData.linkedinUrl
  let gu := urlFieldStep "githubUrl" extractedData.githubUrl
  let pu := urlFieldStep "portfolioUrl" extractedData.portfolioUrl
  let em := emailFieldStep extractedData.email
  let cc := ccFieldStep extractedData.country_code
  let edu := eduSectionStep extractedData.education_history
  match softSectionStep extractedData.soft_skills with
  | none => none
  | some (soft, m7) =>
    some ({ extractedData with
        linkedinUrl := lu.1,
        githubUrl := gu.1,
        portfolioUrl := pu.1,
        email := em.1,
        country_code := cc.1,
        education_history := edu.1,
        professional_experience := extractedData.professional_experience.map (List.map expStep),
        technical_skills := extractedData.technical_skills.map (List.map skillLevelStep),
        soft_skills := soft,
        base_languages := extractedData.base_languages.map (List.map langStep),
        certifications := extractedData.certifications.map (List.map certStep),
        desired_duration_months := durationStep extractedData.desired_duration_months,
        desired_locations := extractedData.desired_locations.map (prefListStep LOCATION_OPTIONS),
        desired_industries :=
          extractedData.desired_industries.map (prefListStep INDUSTRY_PREFERENCE_OPTIONS) },
      lu.2 ++ gu.2 ++ pu.2 ++ em.2 ++ cc.2 ++ edu.2 ++ m7)

/-- A calendar month: year plus 0-based month (the value of JS
`Date.getMonth()` for a date built from a `"YYYY-MM-01"` string). -/
structure YM where
  year : Nat
  month0 : Nat
deriving DecidableEq, Repr

/-- Linear month index; comparing or subtracting first-of-month JS
`Date`s is equivalent to comparing or subtracting month indices. -/
def monthIdx (d : YM) : Nat := 12 * d.year + d.month0

/-- Numeric value of a digit character. -/
def digitVal (c : Char) : Nat := c.toNat - 48

/-- Model of `new Date(s + '-01')` validity for the strings the pipeline
produces: parses strict `YYYY-MM` with month 01-12, anything else is an
invalid date. -/
def parseYM (s : String) : Option YM :=
  match s.toList with
  | [y1, y2, y3, y4, sep, m1, m2] =>
    if y1.isDigit && y2.isDigit && y3.isDigit && y4.isDigit && sep == '-'
        && m1.isDigit && m2.isDigit then
      let mm := 10 * digitVal m1 + digitVal m2
      if 1 ≤ mm ∧ mm ≤ 12 then
        some ⟨1000 * digitVal y1 + 100 * digitVal y2 + 10 * digitVal y3 + digitVal y4, mm - 1⟩
      else none
    else none
  | _ => none

/-- Parse a JS value used as a date string; non-strings concatenated
with `'-01'` never form a valid date. -/
def dateFromJS : JSVal → Option YM
  | .str s => parseYM s
  | _ => none

/-- Step 1 of `calculateTotalWorkMonths` (index.js:827-860) for one
entry: resolve the end (now when current or open-ended), skip entries
without a start, with unparsable dates, with a throwing
`endDate.toLowerCase()` (caught by the source's `try`), or with
start after end. -/
def resolveRange (now : YM) (exp : ExpEntry) : Option (YM × YM) :=
  if exp.startDate.truthy = false then none
  else
    let startD : Option YM := dateFromJS exp.startDate
    let endD : Option (Option YM) :=
      if exp.isCurrent = .bool true then some (some now)
      else if exp.endDate.truthy then
        match exp.endDate with
        | .str s => if jsLower s ≠ "present" then some (parseYM s) else some (some now)
        | _ => none
      else some (some now)
    match startD, endD with
    | some st, some (some en) =>
      if monthIdx st ≤ monthIdx en then some (st, en) else none
    | _, _ => none

/-- Insertion of one range into a start-sorted list (model of the JS
sort by `a.start - b.start`). -/
def insertRange (r : YM × YM) : List (YM × YM) → List (YM × YM)
  | [] => [r]
  | x :: xs =>
    if monthIdx r.1 ≤ monthIdx x.1 then r :: x :: xs else x :: insertRange r xs

/-- Sort ranges by start date ascending. -/
def sortRanges : List (YM × YM) → List (YM × YM)
  | [] => []
  | r :: rs => insertRange r (sortRanges rs)

/-- `new Date(Math.max(a.getTime(), b.getTime()))` at month granularity. -/
def maxEnd (a b : YM) : YM := if monthIdx a < monthIdx b then b else a

/-- The sweep of step 3 of `calculateTotalWorkMonths` (index.js:868-881):
extend the running merged interval while the next start is ≤ its end. -/
def mergeLoop (last : YM × YM) : List (YM × YM) → List (YM × YM)
  | [] => [last]
  | cur :: rest =>
    if monthIdx cur.1 ≤ monthIdx last.2 then mergeLoop (last.1, maxEnd last.2 cur.2) rest
    else last :: mergeLoop cur rest

/-- Merge overlapping sorted ranges. -/
def mergeRanges : List (YM × YM) → List (YM × YM)
  | [] => []
  | r :: rs => mergeLoop r rs

/-- Whole-calendar-month difference of one merged range, floored at zero
(step 4, index.js:886-890). -/
def rangeMonths (r : YM × YM) : Int :=
  max 0 (12 * ((r.2.year : Int) - r.1.year) + ((r.2.month0 : Int) - r.1.month0))

/-- Embeds `calculateTotalWorkMonths` (index.js:821-893), with the
reference time `now` passed explicitly. -/
def calculateTotalWorkMonths (now : YM) (experiences : Option (List ExpEntry)) : Int :=
  match experiences with
  | none => 0
  | some exps =>
    if exps.length = 0 then 0
    else
      let ranges := exps.filterMap (resolveRange now)
      if ranges.length = 0 then 0
      else ((mergeRanges (sortRanges ranges)).map rangeMonths).foldr (· + ·) 0

/-- Embeds `calculateYearsFromMonths` (index.js:896): `Math.floor(m/12)`,
0 for negative input. -/
def calculateYearsFromMonths (months : Int) : Int :=
  if months < 0 then 0 else months / 12

/-- Embeds `inferYearsOfExperience` (index.js:902): always recomputed
from the experience list, 0 when there are no entries. -/
def inferYearsOfExperience (now : YM) (extractedData : CandidateRecord) : Int :=
  match extractedData.professional_experience with
  | none => 0
  | some exps =>
    if exps.length = 0 then 0
    else calculateYearsFromMonths (calculateTotalWorkMonths now (some exps))

/-- Keep-first deduplication (model of `indexOf(c) === index`). -/
def dedupGo : List JSVal → List JSVal → List JSVal
  | [], _ => []
  | x :: xs, seen => if x ∈ seen then dedupGo xs seen else x :: dedupGo xs (x :: seen)

/-- Embeds `extractUniqueCountries` (index.js:916). -/
def extractUniqueCountries (items : List ExpEntry) : List JSVal :=
  dedupGo ((items.map (fun i => i.country)).filter JSVal.truthy) []

/-- Embeds `inferDesiredLocations` (index.js:926). -/
def inferDesiredLocations (extractedData : CandidateRecord) : List JSVal :=
  match extractedData.desired_locations with
  | some locs =>
    if 0 < locs.length then locs
    else
      let workCountries := extractUniqueCountries (extractedData.professional_experience.getD [])
      if workCountries.length = 1 then workCountries else []
  | none =>
    let workCountries := extractUniqueCountries (extractedData.professional_experience.getD [])
    if workCountries.length = 1 then workCountries else []

/-- Embeds `inferPositionType` (index.js:943): `some none` is a null
result (falsy position name), the outer `none` models the uncaught
`positionName.toLowerCase()` throw on a truthy non-string. -/
def inferPositionType (positionName : JSVal) : Option (Option String) :=
  if positionName.truthy = false then some none
  else
    match positionName with
    | .str s =>
      let nameLower := jsLower s
      some (some (
        if incl nameLower "intern" then "Internship"
        else if incl nameLower "freelance" || incl nameLower "contractor"
            || incl nameLower "consultant" then "Freelance / Contractor"
        else if incl nameLower "part-time" || incl nameLower "part time"
            || incl nameLower "parttime" then "Part-time"
        else if incl nameLower "volunteer" then "Volunteer"
        else "Full-time"))
    | _ => none

/-- The per-entry position-type inference of `applyInferenceLogic`
(index.js:983-992). -/
def inferExpStep (exp : ExpEntry) : Option (ExpEntry × List String) :=
  if exp.positionType.truthy = false then
    match inferPositionType exp.positionName with
    | none => none
    | some inferredType =>
      let msgs : List String :=
        match inferredType with
        | some t => ["Inferred positionType for " ++ exp.positionName.display ++ ": " ++ t]
        | none => []
      some ({ exp with
          positionType := match inferredType with | some t => .str t | none => .null }, msgs)
  else some (exp, [])

/-- Maps a fallible message-producing step over a list. -/
def mapCollectO (f : α → Option (β × List String)) : List α → Option (List β × List String)
  | [] => some ([], [])
  | x :: xs =>
    match f x with
    | none => none
    | some r =>
      match mapCollectO f xs with
      | none => none
      | some rs => some (r.1 :: rs.1, r.2 ++ rs.2)

/-- The `ENABLE_INFERENCE` flag; the environment default is true. -/
def ENABLE_INFERENCE : Bool := true

/-- The years-of-experience recomputation of `applyInferenceLogic`
(index.js:962-970). -/
def inferYearsStep (now : YM) (extractedData : CandidateRecord) :
    CandidateRecord × List String :=
  if ENABLE_INFERENCE then
    let originalValue := extractedData.years_of_experience
    let yrs := inferYearsOfExperience now extractedData
    ({ extractedData with years_of_experience := .num yrs },
      if originalValue ≠ .num yrs then
        ["Calculated years_of_experience: " ++ toString yrs ++ " (was: "
          ++ (if originalValue.truthy then originalValue.display else "null") ++ ")"]
      else ["Verified years_of_experience: " ++ toString yrs])
  else (extractedData, [])

/-- The desired-locations inference of `applyInferenceLogic`
(index.js:973-979). -/
def inferLocStep (r : CandidateRecord) : CandidateRecord × List String :=
  if ENABLE_INFERENCE
      && (match r.desired_locations with | none => true | some l => l.length = 0) then
    let inferredLocations := inferDesiredLocations r
    if 0 < inferredLocations.length then
      ({ r with desired_locations := some inferredLocations },
        ["Inferred desired_locations from work history"])
    else (r, [])
  else (r, [])

/-- The position-type inference of `applyInferenceLogic`
(index.js:982-993); `none` models the uncaught throw. -/
def inferPosStep (r : CandidateRecord) : Option (CandidateRecord × List String) :=
  match (if ENABLE_INFERENCE then r.professional_experience else none) with
  | some exps =>
    match mapCollectO inferExpStep exps with
    | none => none
    | some (newExps, msgs) =>
      some ({ r with professional_experience := some newExps }, msgs)
  | none => some (r, [])

/-- Embeds `applyInferenceLogic` (index.js:957-996): recompute years of
experience, infer desired locations, infer missing position types. The
result is `none` exactly when position-type inference would throw. -/
def applyInferenceLogic (now : YM) (extractedData : CandidateRecord) :
    Option (CandidateRecord × List String) :=
  let step1 := inferYearsStep now extractedData
  let step2 := inferLocStep step1.1
  match inferPosStep step2.1 with
  | none => none
  | some step3 => some (step3.1, step1.2 ++ step2.2 ++ step3.2)

/-- Embeds `validateFunctionalExpertise` (index.js:1007): keep only
string members of the closed category set. -/
def validateFunctionalExpertise (expertise : Option (List JSVal)) : List String :=
  match expertise with
  | none => []
  | some l =>
    l.filterMap (fun item =>
      match item with
      | .str s => if s ∈ FUNCTIONAL_EXPERTISE_OPTIONS then some s else none
      | _ => none)

/-- The append loop of `mergeFunctionalExpertise` (index.js:1035-1040). -/
def mergeLoopFE (merged : List String) : List String → List String
  | [] => merged
  | e :: es =>
    if 8 ≤ merged.length then merged
    else if e ∈ merged then mergeLoopFE merged es
    else mergeLoopFE (merged ++ [e]) es

/-- Embeds `mergeFunctionalExpertise` (index.js:1024): user selections
first (source of truth), parser values appended up to the cap of 8. -/
def mergeFunctionalExpertise (userExpertise parserExpertise : Option (List JSVal)) :
    List String :=
  let validUserExpertise := validateFunctionalExpertise userExpertise
  let validParserExpertise := validateFunctionalExpertise parserExpertise
  mergeLoopFE validUserExpertise validParserExpertise

/-- The set of calendar months covered by one half-open interval
`[start, end)` (measured in month indices). -/
def rangeSet (r : YM × YM) : Finset Nat :=
  Finset.Ico (monthIdx r.1) (monthIdx r.2)

/-- The set of calendar months covered by a list of intervals. -/
def unionSet : List (YM × YM) → Finset Nat
  | [] => ∅
  | r :: rs => rangeSet r ∪ unionSet rs

/-- The intervals that step 1 and 2 of the interval merger keep. -/
def resolvedRanges (now : YM) (experiences : Option (List ExpEntry)) : List (YM × YM) :=
  match experiences with
  | none => []
  | some exps => exps.filterMap (resolveRange now)

/-- An option list is well-formed when its values are pairwise distinct
after lower-casing and are unaffected by trimming (true of every closed
option set of the system). -/
def goodOptions (opts : List FOpt) : Bool :=
  decide ((optionValues opts).Pairwise fun a b => jsLower a ≠ jsLower b)
    && (optionValues opts).all fun v => jsTrim (jsLower v) == jsLower v

/-- A raw categorical value is synonym-safe for an option set when the
fuzzy matcher, if it matches at all, returns a member of that option
set (rather than a cross-domain synonym-table value). -/
def catOk (v : JSVal) (opts : List FOpt) : Bool :=
  match fuzzyMatchToOptions v opts with
  | some o => (optionValues opts).contains o
  | none => true

/-- A record is synonym-safe when every categorical slot the record
validator touches is synonym-safe for its option set. -/
def recordSynonymSafe (r : CandidateRecord) : Bool :=
  ((r.education_history.getD []).all fun edu =>
      catOk edu.degreeType DEGREE_TYPE_OPTIONS
        && catOk edu.generalField GENERAL_FIELD_OPTIONS
        && catOk edu.country COUNTRY_OPTIONS)
    && ((r.professional_experience.getD []).all fun exp =>
      catOk exp.positionType POSITION_TYPE_OPTIONS && catOk exp.country COUNTRY_OPTIONS)
    && ((r.technical_skills.getD []).all fun sk => catOk sk.level SKILL_PROFICIENCY_OPTIONS)
    && ((r.soft_skills.getD []).all fun sk => catOk sk.level SKILL_PROFICIENCY_OPTIONS)
    && ((r.base_languages.getD []).all fun lang =>
      catOk lang.proficiency LANGUAGE_PROFICIENCY_OPTIONS)
    && catOk r.desired_duration_months DURATION_OPTIONS
    && ((r.desired_locations.getD []).all fun loc => catOk loc LOCATION_OPTIONS)
    && ((r.desired_industries.getD []).all fun ind => catOk ind INDUSTRY_PREFERENCE_OPTIONS)

/-- An experience entry with the given dates and nothing else. -/
def mkExp (sd ed : JSVal) : ExpEntry :=
  { positionName := .null, positionType := .null, country := .null,
    startDate := sd, endDate := ed, isCurrent := .null, rest := [] }

/-- A candidate record with every field absent. -/
def emptyRecord : CandidateRecord :=
  { linkedinUrl := .null, githubUrl := .null, portfolioUrl := .null,
    email := .null, country_code := .null, years_of_experience := .null,
    education_history := none, professional_experience := none,
    technical_skills := none, soft_skills := none, base_languages := none,
    certifications := none, desired_duration_months := .null,
    desired_locations := none, desired_industries := none, rest := [] }

/-- A reference time for the concrete examples: July 2024. -/
def nowJul2024 : YM := ⟨2024, 6⟩

/-- The two overlapping intervals of the spec's merge example:
`[2020-01, 2021-01)` and `[2020-06, 2022-01)`. -/
def overlapExps : List ExpEntry :=
  [mkExp (.str "2020-01") (.str "2021-01"), mkExp (.str "2020-06") (.str "2022-01")]

/-- The two disjoint intervals of the spec's merge example:
`[2018-01, 2019-01)` and `[2020-01, 2021-01)`. -/
def disjointExps : List ExpEntry :=
  [mkExp (.str "2018-01") (.str "2019-01"), mkExp (.str "2020-01") (.str "2021-01")]

/-- A raw record claiming 15 years of experience with an empty
experience list. -/
def record15 : CandidateRecord :=
  { emptyRecord with years_of_experience := .str "15", professional_experience := some [] }

/-- A record whose technical-skill level `"usa"` exercises the
cross-domain synonym table. -/
def usaLevelRecord : CandidateRecord :=
  { emptyRecord with
      technical_skills := some [{ name := .str "Python", level := .str "usa", rest := [] }] }

/-- An education entry whose degree type is the spec's guard example. -/
def masterAccountingEdu : EduEntry :=
  { degreeType := .str "Master of Accounting", generalField := .null,
    specificField := .null, country := .null, startDate := .null,
    endDate := .null, rest := [] }

/-- A record containing only the guard-example education entry. -/
def masterAccountingRecord : CandidateRecord :=
  { emptyRecord with education_history := some [masterAccountingEdu] }

/-- The guard-example education entry after validation. -/
def masterAccountingEduOut : EduEntry :=
  { masterAccountingEdu with degreeType := .str "MSc" }

/-- The guard-example record after validation. -/
def masterAccountingRecordOut : CandidateRecord :=
  { masterAccountingRecord with education_history := some [masterAccountingEduOut] }

/-- An experience entry with no position name and no position type. -/
def namelessExp : ExpEntry :=
  { positionName := .null, positionType := .null, country := .null,
    startDate := .str "2020-01", endDate := .str "2021-01", isCurrent := .null, rest := [] }

/-- A record containing only the nameless experience entry. -/
def namelessExpRecord : CandidateRecord :=
  { emptyRecord with professional_experience := some [namelessExp] }

/-- Eight valid user expertise selections. -/
def eightUserExpertise : List JSVal :=
  [.str "Trading", .str "Risk Management", .str "Quantitative Analysis", .str "Technology",
   .str "Operations", .str "Finance", .str "Leadership", .str "Legal"]

/-- Five parser expertise values, all distinct from the eight user
selections. -/
def fiveParserExpertise : List JSVal :=
  [.str "Compliance", .str "Research", .str "Analytics", .str "Engineering", .str "Astrology"]

/-- `usaLevelRecord` after one validation pass: the cross-domain synonym
value `United States` has been written into the skill level. -/
def usaOutRecord : CandidateRecord :=
  { usaLevelRecord with
      technical_skills :=
        some [{ name := .str "Python", level := .str "United States", rest := [] }] }

/-- A synonym-safe record exercising the URL, email, country-code, skill
level, soft-skill filtering, duration and location repairs at once. -/
def richRecord : CandidateRecord :=
  { emptyRecord with
      linkedinUrl := .str "linkedin.com/in/x",
      email := .str " a@b.co ",
      country_code := .str "41",
      technical_skills := some [{ name := .str "Python", level := .str "expert", rest := [] }],
      soft_skills := some [{ name := .str "Sales", level := .null, rest := [] },
                           { name := .str "Teamwork", level := .str "advanced", rest := [] }],
      desired_duration_months := .str "6 months",
      desired_locations := some [.str "zurich", .str "Mars"] }

/-- `richRecord` after one validation pass. -/
def richRecordOut : CandidateRecord :=
  { emptyRecord with
      linkedinUrl := .str "https://linkedin.com/in/x",
      email := .str "a@b.co",
      country_code := .str "+41",
      technical_skills := some [{ name := .str "Python", level := .str "Expert", rest := [] }],
      soft_skills := some [{ name := .str "Teamwork", level := .str "Advanced", rest := [] }],
      desired_duration_months := .str "6",
      desired_locations := some [.str "Zurich"] }

/-- The correction log of one validation pass over `richRecord`. -/
def richLog : List String :=
  ["Added https:// to linkedinUrl", "Added + to country code",
   "Removed \"Sales\" from soft_skills (domain/business skill)"]

/-! ### String-model lemmas -/

theorem lowerChar_shape (c : Char) :
    lowerChar c = c ∨ lowerChar c ∈
      ['a', 'b', 'c', 'd', 'e', 'f', 'g', 'h', 'i', 'j', 'k', 'l', 'm',
       'n', 'o', 'p', 'q', 'r', 's', 't', 'u', 'v', 'w', 'x', 'y', 'z'] := by
  unfold lowerChar
  split
  all_goals first | (left; rfl) | (right; decide)

theorem lowerChar_idem (c : Char) : lowerChar (lowerChar c) = lowerChar c := by
  rcases lowerChar_shape c with h | h
  · rw [h]; exact h
  · have hall : ∀ d ∈ ['a', 'b', 'c', 'd', 'e', 'f', 'g', 'h', 'i', 'j', 'k', 'l', 'm',
        'n', 'o', 'p', 'q', 'r', 's', 't', 'u', 'v', 'w', 'x', 'y', 'z'],
        lowerChar d = d := by decide
    rw [hall _ h]

theorem wsChar_lowerChar (c : Char) : wsChar (lowerChar c) = wsChar c := by
  unfold lowerChar
  split <;> rfl

theorem digit_nonWs {c : Char} (h : c.isDigit = true) : wsChar c = false := by
  by_contra hw
  simp only [Bool.not_eq_false, wsChar, Bool.or_eq_true, decide_eq_true_eq] at hw
  rcases hw with ((h1 | h1) | h1) | h1 <;> (subst h1; exact absurd h (by decide))

theorem digit_lowerFix {c : Char} (h : c.isDigit = true) : lowerChar c = c := by
  unfold lowerChar
  split <;> first | rfl | exact absurd h (by decide)

theorem toList_mk (l : List Char) : (String.mk l).toList = l := rfl

theorem toList_append (a b : String) : (a ++ b).toList = a.toList ++ b.toList := rfl

theorem mk_toList (s : String) : String.mk s.toList = s := rfl

theorem dropWhile_ws_shape (l : List Char) :
    l.dropWhile wsChar = [] ∨
      ∃ c cs, l.dropWhile wsChar = c :: cs ∧ wsChar c = false := by
  induction l with
  | nil => exact .inl rfl
  | cons a l ih =>
    by_cases h : wsChar a = true
    · simpa [List.dropWhile_cons, h] using ih
    · exact .inr ⟨a, l, by simp [List.dropWhile_cons, h], by simpa using h⟩

theorem dropWhile_getLast? {p : Char → Bool} (l : List Char)
    (h : l.dropWhile p ≠ []) : (l.dropWhile p).getLast? = l.getLast? := by
  induction l with
  | nil => simp at h
  | cons a l ih =>
    by_cases hp : p a = true
    · have hl : l.dropWhile p ≠ [] := by simpa [List.dropWhile_cons, hp] using h
      rw [List.dropWhile_cons, if_pos hp, ih hl]
      cases l with
      | nil => simp at hl
      | cons b t => rw [List.getLast?_cons_cons]
    · simp [List.dropWhile_cons, hp]

theorem trimChars_eq_self (l : List Char)
    (h1 : ∀ c, l.head? = some c → wsChar c = false)
    (h2 : ∀ c, l.getLast? = some c → wsChar c = false) :
    trimChars l = l := by
  have hd : l.dropWhile wsChar = l := by
    cases l with
    | nil => rfl
    | cons a l => rw [List.dropWhile_cons, if_neg (by simp [h1 a rfl])]
  have hrev : l.reverse.dropWhile wsChar = l.reverse := by
    cases hr : l.reverse with
    | nil => rfl
    | cons a t =>
      have ha : wsChar a = false := by
        apply h2
        rw [← List.head?_reverse, hr]
        rfl
      rw [List.dropWhile_cons, if_neg (by simp [ha])]
  unfold trimChars
  rw [hd, hrev, List.reverse_reverse]

theorem trimChars_head (l : List Char) {c : Char}
    (h : (trimChars l).head? = some c) : wsChar c = false := by
  unfold trimChars at h
  rw [List.head?_reverse] at h
  rcases dropWhile_ws_shape (l.dropWhile wsChar).reverse with hsh | ⟨d, ds, hsh, hw⟩
  · rw [hsh] at h; simp at h
  · rw [hsh] at h
    have hne : (l.dropWhile wsChar).reverse.dropWhile wsChar ≠ [] := by simp [hsh]
    rw [← hsh, dropWhile_getLast? _ hne, List.getLast?_reverse] at h
    rcases dropWhile_ws_shape l with hsh2 | ⟨e, es, hsh2, hw2⟩
    · rw [hsh2] at h; simp at h
    · rw [hsh2] at h
      simp only [List.head?_cons, Option.some.injEq] at h
      exact h ▸ hw2

theorem trimChars_getLast (l : List Char) {c : Char}
    (h : (trimChars l).getLast? = some c) : wsChar c = false := by
  unfold trimChars at h
  rw [List.getLast?_reverse] at h
  rcases dropWhile_ws_shape (l.dropWhile wsChar).reverse with hsh | ⟨d, ds, hsh, hw⟩
  · rw [hsh] at h; simp at h
  · rw [hsh] at h
    simp only [List.head?_cons, Option.some.injEq] at h
    exact h ▸ hw

theorem trimChars_idem (l : List Char) : trimChars (trimChars l) = trimChars l :=
  trimChars_eq_self _ (fun _ h => trimChars_head l h) (fun _ h => trimChars_getLast l h)

theorem map_lowerChar_idem (l : List Char) :
    (l.map lowerChar).map lowerChar = l.map lowerChar := by
  induction l with
  | nil => rfl
  | cons a l ih => simp [lowerChar_idem, ih]

theorem dropWhile_ws_map_lowerChar (l : List Char) :
    (l.map lowerChar).dropWhile wsChar = (l.dropWhile wsChar).map lowerChar := by
  rw [List.dropWhile_map]
  rw [show wsChar ∘ lowerChar = wsChar from funext wsChar_lowerChar]

theorem trimChars_map_lowerChar (l : List Char) :
    trimChars (l.map lowerChar) = (trimChars l).map lowerChar := by
  unfold trimChars
  rw [dropWhile_ws_map_lowerChar, ← List.map_reverse, dropWhile_ws_map_lowerChar,
    ← List.map_reverse]

theorem jsLower_idem (s : String) : jsLower (jsLower s) = jsLower s := by
  unfold jsLower
  congr 1
  exact map_lowerChar_idem s.toList

theorem jsTrim_idem (s : String) : jsTrim (jsTrim s) = jsTrim s := by
  unfold jsTrim
  congr 1
  exact trimChars_idem s.toList

theorem jsTrim_jsLower (s : String) : jsTrim (jsLower s) = jsLower (jsTrim s) := by
  unfold jsTrim jsLower
  congr 1
  exact trimChars_map_lowerChar s.toList

theorem lowTrim_fix (s : String) :
    jsLower (jsTrim (jsLower (jsTrim s))) = jsLower (jsTrim s) := by
  rw [jsTrim_jsLower (jsTrim s), jsTrim_idem s, jsLower_idem (jsTrim s)]

theorem trimLow_fix (s : String) :
    jsTrim (jsLower (jsTrim (jsLower s))) = jsTrim (jsLower s) := by
  rw [jsTrim_jsLower (jsTrim (jsLower s)), jsTrim_idem (jsLower s),
    ← jsTrim_jsLower (jsLower s), jsLower_idem s]

/-! ### C9: validator null-safety -/

/-- C9: Every field validator (URL, email, country code, date), given
null, undefined, the empty or a whitespace-only string, or any
non-string value, returns null; the embedded validators are total
functions, so no input can raise. -/
theorem c9_validators_null_on_degenerate (v : JSVal)
    (h : v = .null ∨ v = .undef ∨ (∃ s, v = .str s ∧ jsTrim s = "") ∨ ∀ s, v ≠ .str s) :
    validateAndCorrectUrl v = .null ∧ validateEmail v = .null
      ∧ validateAndCorrectCountryCode v = .null ∧ validateAndCorrectDate v = .null := by
  rcases h with rfl | rfl | ⟨s, rfl, hs⟩ | hns
  · exact ⟨rfl, rfl, rfl, rfl⟩
  · exact ⟨rfl, rfl, rfl, rfl⟩
  · by_cases he : s = ""
    · subst he; exact ⟨rfl, rfl, rfl, rfl⟩
    · have hlow : jsLower (jsTrim s) = "" := by rw [hs]; rfl
      refine ⟨?_, ?_, ?_, ?_⟩
      · simp [validateAndCorrectUrl, he, hs]
      · simp [validateEmail, he, hs, emailShape, splitAtAt]
      · simp [validateAndCorrectCountryCode, he, hs]
      · simp [validateAndCorrectDate, he, hlow]
  · cases v <;> first | exact ⟨rfl, rfl, rfl, rfl⟩ | exact absurd rfl (hns _)

/-- C9 witness: the whitespace-only string is rejected by all four
validators. -/
theorem c9_validators_null_witness :
    validateAndCorrectUrl (.str "   ") = .null ∧ validateEmail (.str "   ") = .null
      ∧ validateAndCorrectCountryCode (.str "   ") = .null
      ∧ validateAndCorrectDate (.str "   ") = .null :=
  c9_validators_null_on_degenerate _ (.inr (.inr (.inl ⟨"   ", rfl, by decide⟩)))

/-! ### C8: date validator pass-through -/

/-- C8 counterexample: the date validator does not return unrecognized
input unmodified; it returns the trimmed, lower-cased input
(`"Jan 2020"` comes back as `"jan 2020"`). -/
theorem c8_counterexample :
    validateAndCorrectDate (.str "Jan 2020") = .str "jan 2020"
      ∧ validateAndCorrectDate (.str "Jan 2020") ≠ .str "Jan 2020" := by
  constructor <;> decide

/-- C8 amended: for every string whose trimmed lower-cased form is
nonempty and matches none of the recognized shapes (not "present", not
M/MM-year, not YYYY-MM, not bare YYYY), the date validator returns that
trimmed lower-cased form of the input (not the input itself). -/
theorem c8_unrecognized_passthrough (s : String)
    (h1 : jsLower (jsTrim s) ≠ "")
    (h2 : jsLower (jsTrim s) ≠ "present")
    (h3 : matchMonthYear (jsLower (jsTrim s)).toList = none)
    (h4 : isYYYYMM (jsLower (jsTrim s)).toList = false)
    (h5 : isYYYY (jsLower (jsTrim s)).toList = false) :
    validateAndCorrectDate (.str s) = .str (jsLower (jsTrim s)) := by
  have hs : s ≠ "" := by rintro rfl; exact h1 rfl
  have h4' : isYYYYMM (jsLower (jsTrim s)).data = false := h4
  have h5' : isYYYY (jsLower (jsTrim s)).data = false := h5
  simp only [validateAndCorrectDate]
  rw [if_neg hs, if_neg h1, if_neg h2, h3]
  simp [h4, h5, h4', h5']

/-- C8 witness: the unrecognized shape `"June 2020"` is kept, in
trimmed lower-cased form. -/
theorem c8_unrecognized_witness :
    validateAndCorrectDate (.str "June 2020") = .str "june 2020" :=
  (c8_unrecognized_passthrough "June 2020" (by decide) (by decide) (by decide)
    (by decide) (by decide)).trans (by decide)

/-! ### C4: categorical matcher output range -/

theorem lookup_mem_snd {α β : Type} [BEq α] :
    ∀ (l : List (α × β)) (k : α) (v : β), l.lookup k = some v → v ∈ l.map Prod.snd := by
  intro l
  induction l with
  | nil => intro k v h; simp [List.lookup] at h
  | cons a es ih =>
    intro k v h
    rw [List.lookup_cons] at h
    cases hk : (k == a.1)
    · rw [hk] at h
      simp only [List.map_cons]
      exact List.mem_cons_of_mem _ (ih k v h)
    · rw [hk] at h
      have hv : a.2 = v := by simpa using h
      subst hv
      exact List.mem_map_of_mem Prod.snd (List.mem_cons_self a es)

/-- C4 counterexample: with the options set `{"Zzz"}`, the matcher maps
`"usa"` to the synonym-table value `"United States"`, a string outside
the supplied options set. -/
theorem c4_counterexample :
    fuzzyMatchToOptions (.str "usa") [.s "Zzz"] = some "United States"
      ∧ "United States" ∉ optionValues [.s "Zzz"] := by
  constructor
  · decide
  · decide

/-- C4 amended: for every raw value and options set, the matcher
returns null or an option's value (reached directly or via its label),
except that the final synonym-table step may return one of the fixed
synonym-table values, which is not checked against the supplied options
set; it never fabricates any other value, and no match yields null. -/
theorem c4_fuzzy_output_range (value : JSVal) (optionsArray : List FOpt) (o : String)
    (h : fuzzyMatchToOptions value optionsArray = some o) :
    o ∈ optionValues optionsArray ∨ o ∈ commonMappingsList.map Prod.snd := by
  cases value with
  | str s =>
    simp only [fuzzyMatchToOptions] at h
    by_cases he : s = ""
    · rw [if_pos he] at h; cases h
    · rw [if_neg he] at h
      split at h
      · cases h; exact .inl (List.mem_of_find?_eq_some (by assumption))
      · split at h
        · cases h; exact .inl (List.mem_of_find?_eq_some (by assumption))
        · split at h
          · cases h
            rename_i labelHit hfind
            have hmem := List.mem_of_find?_eq_some hfind
            rw [List.mem_filter] at hmem
            left
            unfold optionValues
            rw [List.mem_filter]
            refine ⟨List.mem_map_of_mem optValue hmem.1, ?_⟩
            cases labelHit with
            | s v => simp [isLabelOpt] at hmem
            | vl v l =>
              have := hmem.2
              simp only [isLabelOpt, Bool.and_eq_true, decide_eq_true_eq] at this
              simpa [optValue] using this.1
          · exact .inr (lookup_mem_snd _ _ _ h)
  | null => simp [fuzzyMatchToOptions] at h
  | undef => simp [fuzzyMatchToOptions] at h
  | num n => simp [fuzzyMatchToOptions] at h
  | bool b => simp [fuzzyMatchToOptions] at h
  | arrv => simp [fuzzyMatchToOptions] at h
  | objv => simp [fuzzyMatchToOptions] at h

/-- C4 witness: an in-set match lands in the options set. -/
theorem c4_fuzzy_output_witness :
    "Fluent" ∈ optionValues LANGUAGE_PROFICIENCY_OPTIONS
      ∨ "Fluent" ∈ commonMappingsList.map Prod.snd :=
  c4_fuzzy_output_range (.str "fluent") LANGUAGE_PROFICIENCY_OPTIONS "Fluent" (by decide)

/-! ### C7: date normalization -/

theorem string_eq_of_toList {a b : String} (h : a.toList = b.toList) : a = b := by
  cases a
  cases b
  exact congrArg String.mk h

theorem mem_of_head? {l : List Char} {c : Char} (h : l.head? = some c) : c ∈ l := by
  cases l with
  | nil => simp at h
  | cons a t =>
    rw [List.head?_cons, Option.some.injEq] at h
    exact h ▸ List.mem_cons_self a t

theorem mem_of_getLast? {l : List Char} {c : Char} (h : l.getLast? = some c) : c ∈ l := by
  have : l.reverse.head? = some c := by rw [List.head?_reverse]; exact h
  have := mem_of_head? this
  exact List.mem_reverse.mp this

theorem trimChars_of_nonWs (l : List Char) (h : ∀ c ∈ l, wsChar c = false) :
    trimChars l = l :=
  trimChars_eq_self l (fun c hc => h c (mem_of_head? hc))
    (fun c hc => h c (mem_of_getLast? hc))

theorem map_lowerChar_of_fix (l : List Char) (h : ∀ c ∈ l, lowerChar c = c) :
    l.map lowerChar = l := by
  induction l with
  | nil => rfl
  | cons a t ih =>
    rw [List.map_cons, h a (List.mem_cons_self a t),
      ih fun c hc => h c (List.mem_cons_of_mem a hc)]

theorem jsTrim_of_nonWs (s : String) (h : ∀ c ∈ s.toList, wsChar c = false) :
    jsTrim s = s := by
  unfold jsTrim
  rw [trimChars_of_nonWs s.toList h]
  rfl

theorem jsLower_of_fix (s : String) (h : ∀ c ∈ s.toList, lowerChar c = c) :
    jsLower s = s := by
  unfold jsLower
  rw [map_lowerChar_of_fix s.toList h]
  rfl

theorem digitChar_isDigit {d : Nat} (h : d < 10) : (Nat.digitChar d).isDigit = true := by
  interval_cases d <;> rfl

theorem digit_not_sep {c : Char} (h : c.isDigit = true) :
    (c == '/') = false ∧ (c == '-') = false := by
  constructor <;> (by_contra hc
                   simp only [Bool.not_eq_false, beq_iff_eq] at hc
                   subst hc
                   exact absurd h (by decide))

theorem toDigitsCore_succ (b fuel n : Nat) (ds : List Char) :
    Nat.toDigitsCore b (fuel + 1) n ds =
      if n / b = 0 then Nat.digitChar (n % b) :: ds
      else Nat.toDigitsCore b fuel (n / b) (Nat.digitChar (n % b) :: ds) := rfl

/-- The decimal representation of a four-digit number, digit by digit. -/
theorem repr_fourDigit (y : Nat) (hy1 : 1000 ≤ y) (hy2 : y ≤ 9999) :
    Nat.repr y = String.mk [Nat.digitChar (y / 1000), Nat.digitChar (y / 100 % 10),
      Nat.digitChar (y / 10 % 10), Nat.digitChar (y % 10)] := by
  obtain ⟨f, hf⟩ : ∃ f, y + 1 = f + 4 := ⟨y - 3, by omega⟩
  have e1 : y / 10 / 10 = y / 100 := by rw [Nat.div_div_eq_div_mul]
  have e2 : y / 100 / 10 = y / 1000 := by rw [Nat.div_div_eq_div_mul]
  have e3 : y / 1000 / 10 = 0 := Nat.div_eq_of_lt (by omega)
  have e4 : y / 1000 % 10 = y / 1000 := Nat.mod_eq_of_lt (by omega)
  unfold Nat.repr Nat.toDigits
  rw [hf, toDigitsCore_succ, if_neg (by omega)]
  rw [toDigitsCore_succ, e1, if_neg (by omega)]
  rw [toDigitsCore_succ, e2, if_neg (by omega)]
  rw [toDigitsCore_succ, e3, if_pos rfl, e4]
  rfl

theorem yearDigits (y : Nat) (hy1 : 1000 ≤ y) (hy2 : y ≤ 9999) :
    ∃ c1 c2 c3 c4 : Char, Nat.repr y = String.mk [c1, c2, c3, c4]
      ∧ c1.isDigit = true ∧ c2.isDigit = true ∧ c3.isDigit = true ∧ c4.isDigit = true :=
  ⟨_, _, _, _, repr_fourDigit y hy1 hy2,
    digitChar_isDigit (by omega),
    digitChar_isDigit (Nat.mod_lt _ (by omega)),
    digitChar_isDigit (Nat.mod_lt _ (by omega)),
    digitChar_isDigit (Nat.mod_lt _ (by omega))⟩

theorem monthDigits1 (m : Nat) (hm1 : 1 ≤ m) (hm2 : m ≤ 9) :
    ∃ mc : Char, Nat.repr m = String.mk [mc] ∧ mc.isDigit = true := by
  interval_cases m
  · exact ⟨'1', by decide, by decide⟩
  · exact ⟨'2', by decide, by decide⟩
  · exact ⟨'3', by decide, by decide⟩
  · exact ⟨'4', by decide, by decide⟩
  · exact ⟨'5', by decide, by decide⟩
  · exact ⟨'6', by decide, by decide⟩
  · exact ⟨'7', by decide, by decide⟩
  · exact ⟨'8', by decide, by decide⟩
  · exact ⟨'9', by decide, by decide⟩

theorem monthDigits2 (m : Nat) (hm1 : 10 ≤ m) (hm2 : m ≤ 12) :
    ∃ ma mb : Char, Nat.repr m = String.mk [ma, mb]
      ∧ ma.isDigit = true ∧ mb.isDigit = true := by
  interval_cases m
  · exact ⟨'1', '0', by decide, by decide, by decide⟩
  · exact ⟨'1', '1', by decide, by decide, by decide⟩
  · exact ⟨'1', '2', by decide, by decide, by decide⟩

theorem dateVal6 (mc sep c1 c2 c3 c4 : Char) (hmc : mc.isDigit = true)
    (hsep : sep = '/' ∨ sep = '-')
    (h1 : c1.isDigit = true) (h2 : c2.isDigit = true)
    (h3 : c3.isDigit = true) (h4 : c4.isDigit = true) :
    validateAndCorrectDate (.str (String.mk [mc, sep, c1, c2, c3, c4]))
      = .str (String.mk [c1, c2, c3, c4, '-', '0', mc]) := by
  have hall : ∀ c ∈ [mc, sep, c1, c2, c3, c4], wsChar c = false ∧ lowerChar c = c := by
    intro c hc
    simp only [List.mem_cons, List.not_mem_nil, or_false] at hc
    rcases hc with rfl | rfl | rfl | rfl | rfl | rfl
    · exact ⟨digit_nonWs hmc, digit_lowerFix hmc⟩
    · rcases hsep with rfl | rfl <;> exact ⟨by decide, by decide⟩
    · exact ⟨digit_nonWs h1, digit_lowerFix h1⟩
    · exact ⟨digit_nonWs h2, digit_lowerFix h2⟩
    · exact ⟨digit_nonWs h3, digit_lowerFix h3⟩
    · exact ⟨digit_nonWs h4, digit_lowerFix h4⟩
  have hs : String.mk [mc, sep, c1, c2, c3, c4] ≠ "" := by
    intro he
    have := congrArg String.toList he
    simp at this
  have htrim := jsTrim_of_nonWs (String.mk [mc, sep, c1, c2, c3, c4])
    (fun c hc => (hall c hc).1)
  have hlow := jsLower_of_fix (String.mk [mc, sep, c1, c2, c3, c4])
    (fun c hc => (hall c hc).2)
  have hpres : String.mk [mc, sep, c1, c2, c3, c4] ≠ "present" := by
    intro he
    have := congrArg String.toList he
    simp at this
  have hsepb : (sep == '/' || sep == '-') = true := by
    rcases hsep with rfl | rfl <;> rfl
  simp only [validateAndCorrectDate]
  rw [if_neg hs, htrim, hlow, if_neg hs, if_neg hpres]
  simp only [toList_mk, matchMonthYear]
  rw [if_pos (by simp [hmc, hsepb, h1, h2, h3, h4])]
  rfl

theorem dateVal7 (ma mb sep c1 c2 c3 c4 : Char)
    (hma : ma.isDigit = true) (hmb : mb.isDigit = true)
    (hsep : sep = '/' ∨ sep = '-')
    (h1 : c1.isDigit = true) (h2 : c2.isDigit = true)
    (h3 : c3.isDigit = true) (h4 : c4.isDigit = true) :
    validateAndCorrectDate (.str (String.mk [ma, mb, sep, c1, c2, c3, c4]))
      = .str (String.mk [c1, c2, c3, c4, '-', ma, mb]) := by
  have hall : ∀ c ∈ [ma, mb, sep, c1, c2, c3, c4], wsChar c = false ∧ lowerChar c = c := by
    intro c hc
    simp only [List.mem_cons, List.not_mem_nil, or_false] at hc
    rcases hc with rfl | rfl | rfl | rfl | rfl | rfl | rfl
    · exact ⟨digit_nonWs hma, digit_lowerFix hma⟩
    · exact ⟨digit_nonWs hmb, digit_lowerFix hmb⟩
    · rcases hsep with rfl | rfl <;> exact ⟨by decide, by decide⟩
    · exact ⟨digit_nonWs h1, digit_lowerFix h1⟩
    · exact ⟨digit_nonWs h2, digit_lowerFix h2⟩
    · exact ⟨digit_nonWs h3, digit_lowerFix h3⟩
    · exact ⟨digit_nonWs h4, digit_lowerFix h4⟩
  have hs : String.mk [ma, mb, sep, c1, c2, c3, c4] ≠ "" := by
    intro he
    have := congrArg String.toList he
    simp at this
  have htrim := jsTrim_of_nonWs (String.mk [ma, mb, sep, c1, c2, c3, c4])
    (fun c hc => (hall c hc).1)
  have hlow := jsLower_of_fix (String.mk [ma, mb, sep, c1, c2, c3, c4])
    (fun c hc => (hall c hc).2)
  have hpres : String.mk [ma, mb, sep, c1, c2, c3, c4] ≠ "present" := by
    intro he
    have := congrArg String.toList he
    simp only [toList_mk] at this
    have hma' := hma
    rw [show ma = 'p' by
      have : ma = 'p' := by
        have := congrArg (fun l => l.head?) this
        simpa using this
      exact this] at hma'
    exact absurd hma' (by decide)
  have hsepb : (sep == '/' || sep == '-') = true := by
    rcases hsep with rfl | rfl <;> rfl
  simp only [validateAndCorrectDate]
  rw [if_neg hs, htrim, hlow, if_neg hs, if_neg hpres]
  simp only [toList_mk, matchMonthYear]
  rw [if_pos (by simp [hma, hmb, hsepb, h1, h2, h3, h4])]
  rfl

theorem dateKeep7 (c1 c2 c3 c4 ma mb : Char)
    (h1 : c1.isDigit = true) (h2 : c2.isDigit = true)
    (h3 : c3.isDigit = true) (h4 : c4.isDigit = true)
    (hma : ma.isDigit = true) (hmb : mb.isDigit = true) :
    validateAndCorrectDate (.str (String.mk [c1, c2, c3, c4, '-', ma, mb]))
      = .str (String.mk [c1, c2, c3, c4, '-', ma, mb]) := by
  have hall : ∀ c ∈ [c1, c2, c3, c4, '-', ma, mb], wsChar c = false ∧ lowerChar c = c := by
    intro c hc
    simp only [List.mem_cons, List.not_mem_nil, or_false] at hc
    rcases hc with rfl | rfl | rfl | rfl | rfl | rfl | rfl
    · exact ⟨digit_nonWs h1, digit_lowerFix h1⟩
    · exact ⟨digit_nonWs h2, digit_lowerFix h2⟩
    · exact ⟨digit_nonWs h3, digit_lowerFix h3⟩
    · exact ⟨digit_nonWs h4, digit_lowerFix h4⟩
    · exact ⟨by decide, by decide⟩
    · exact ⟨digit_nonWs hma, digit_lowerFix hma⟩
    · exact ⟨digit_nonWs hmb, digit_lowerFix hmb⟩
  have hs : String.mk [c1, c2, c3, c4, '-', ma, mb] ≠ "" := by
    intro he
    have := congrArg String.toList he
    simp at this
  have htrim := jsTrim_of_nonWs (String.mk [c1, c2, c3, c4, '-', ma, mb])
    (fun c hc => (hall c hc).1)
  have hlow := jsLower_of_fix (String.mk [c1, c2, c3, c4, '-', ma, mb])
    (fun c hc => (hall c hc).2)
  have hpres : String.mk [c1, c2, c3, c4, '-', ma, mb] ≠ "present" := by
    intro he
    have := congrArg String.toList he
    simp only [toList_mk] at this
    have h1' := h1
    rw [show c1 = 'p' by
      have := congrArg (fun l => l.head?) this
      simpa using this] at h1'
    exact absurd h1' (by decide)
  have hnosep := digit_not_sep h3
  have hmy : matchMonthYear [c1, c2, c3, c4, '-', ma, mb] = none := by
    simp [matchMonthYear, hnosep.1, hnosep.2]
  have hyy : isYYYYMM [c1, c2, c3, c4, '-', ma, mb] = true := by
    simp [isYYYYMM, h1, h2, h3, h4, hma, hmb]
  simp only [validateAndCorrectDate]
  rw [if_neg hs, htrim, hlow, if_neg hs, if_neg hpres]
  simp only [toList_mk]
  rw [hmy]
  simp [hyy]

theorem dateYYYY4 (c1 c2 c3 c4 : Char)
    (h1 : c1.isDigit = true) (h2 : c2.isDigit = true)
    (h3 : c3.isDigit = true) (h4 : c4.isDigit = true) :
    validateAndCorrectDate (.str (String.mk [c1, c2, c3, c4]))
      = .str (String.mk [c1, c2, c3, c4] ++ "-01") := by
  have hall : ∀ c ∈ [c1, c2, c3, c4], wsChar c = false ∧ lowerChar c = c := by
    intro c hc
    simp only [List.mem_cons, List.not_mem_nil, or_false] at hc
    rcases hc with rfl | rfl | rfl | rfl
    · exact ⟨digit_nonWs h1, digit_lowerFix h1⟩
    · exact ⟨digit_nonWs h2, digit_lowerFix h2⟩
    · exact ⟨digit_nonWs h3, digit_lowerFix h3⟩
    · exact ⟨digit_nonWs h4, digit_lowerFix h4⟩
  have hs : String.mk [c1, c2, c3, c4] ≠ "" := by
    intro he
    have := congrArg String.toList he
    simp at this
  have htrim := jsTrim_of_nonWs (String.mk [c1, c2, c3, c4]) (fun c hc => (hall c hc).1)
  have hlow := jsLower_of_fix (String.mk [c1, c2, c3, c4]) (fun c hc => (hall c hc).2)
  have hpres : String.mk [c1, c2, c3, c4] ≠ "present" := by
    intro he
    have := congrArg String.toList he
    simp at this
  have hy4 : isYYYY [c1, c2, c3, c4] = true := by
    simp [isYYYY, h1, h2, h3, h4]
  simp only [validateAndCorrectDate]
  rw [if_neg hs, htrim, hlow, if_neg hs, if_neg hpres]
  simp only [toList_mk]
  rw [show matchMonthYear [c1, c2, c3, c4] = none from rfl]
  simp [hy4, isYYYYMM]

theorem datePresent (s : String) (h : jsLower (jsTrim s) = "present") :
    validateAndCorrectDate (.str s) = .str "present" := by
  have hs : s ≠ "" := by
    rintro rfl
    exact absurd h (by decide)
  simp only [validateAndCorrectDate]
  rw [if_neg hs, h]
  rfl

/-- C7: the date validator normalizes every recognized shape: for every
valid month 1-12 and four-digit year, `M/YYYY` and `M-YYYY` (and their
two-digit-month forms) become the zero-padded `YYYY-MM`; an input
already of shape `YYYY-MM` is returned unchanged; bare `YYYY` becomes
`YYYY-01`; and any input whose trimmed lower-cased form is `present`
(i.e. the literal in any letter case) yields lowercase `present`. -/
theorem c7_date_normalization (m y : Nat) (hm1 : 1 ≤ m) (hm2 : m ≤ 12)
    (hy1 : 1000 ≤ y) (hy2 : y ≤ 9999) :
    (validateAndCorrectDate (.str (Nat.repr m ++ "/" ++ Nat.repr y))
        = .str (Nat.repr y ++ "-" ++ (if m < 10 then "0" ++ Nat.repr m else Nat.repr m)))
      ∧ (validateAndCorrectDate (.str (Nat.repr m ++ "-" ++ Nat.repr y))
        = .str (Nat.repr y ++ "-" ++ (if m < 10 then "0" ++ Nat.repr m else Nat.repr m)))
      ∧ (validateAndCorrectDate (.str (Nat.repr y ++ "-"
            ++ (if m < 10 then "0" ++ Nat.repr m else Nat.repr m)))
        = .str (Nat.repr y ++ "-" ++ (if m < 10 then "0" ++ Nat.repr m else Nat.repr m)))
      ∧ (validateAndCorrectDate (.str (Nat.repr y)) = .str (Nat.repr y ++ "-01"))
      ∧ (∀ s, jsLower (jsTrim s) = "present"
          → validateAndCorrectDate (.str s) = .str "present") := by
  obtain ⟨c1, c2, c3, c4, hrep, h1, h2, h3, h4⟩ := yearDigits y hy1 hy2
  refine ⟨?_, ?_, ?_, ?_, fun s h => datePresent s h⟩
  · by_cases hm : m < 10
    · obtain ⟨mc, hmr, hmcd⟩ := monthDigits1 m hm1 (by omega)
      rw [hrep, hmr, if_pos hm]
      exact dateVal6 mc '/' c1 c2 c3 c4 hmcd (Or.inl rfl) h1 h2 h3 h4
    · obtain ⟨ma, mb, hmr, hma, hmb⟩ := monthDigits2 m (by omega) hm2
      rw [hrep, hmr, if_neg hm]
      exact dateVal7 ma mb '/' c1 c2 c3 c4 hma hmb (Or.inl rfl) h1 h2 h3 h4
  · by_cases hm : m < 10
    · obtain ⟨mc, hmr, hmcd⟩ := monthDigits1 m hm1 (by omega)
      rw [hrep, hmr, if_pos hm]
      exact dateVal6 mc '-' c1 c2 c3 c4 hmcd (Or.inr rfl) h1 h2 h3 h4
    · obtain ⟨ma, mb, hmr, hma, hmb⟩ := monthDigits2 m (by omega) hm2
      rw [hrep, hmr, if_neg hm]
      exact dateVal7 ma mb '-' c1 c2 c3 c4 hma hmb (Or.inr rfl) h1 h2 h3 h4
  · by_cases hm : m < 10
    · obtain ⟨mc, hmr, hmcd⟩ := monthDigits1 m hm1 (by omega)
      rw [hrep, hmr, if_pos hm]
      exact dateKeep7 c1 c2 c3 c4 '0' mc h1 h2 h3 h4 (by decide) hmcd
    · obtain ⟨ma, mb, hmr, hma, hmb⟩ := monthDigits2 m (by omega) hm2
      rw [hrep, hmr, if_neg hm]
      exact dateKeep7 c1 c2 c3 c4 ma mb h1 h2 h3 h4 hma hmb
  · rw [hrep]
    exact dateYYYY4 c1 c2 c3 c4 h1 h2 h3 h4

/-- C7 witness: month 7 of 2023 in all recognized shapes. -/
theorem c7_date_normalization_witness :
    validateAndCorrectDate (.str "7/2023") = .str "2023-07"
      ∧ validateAndCorrectDate (.str "2023") = .str "2023-01"
      ∧ validateAndCorrectDate (.str "Present") = .str "present" := by
  have h := c7_date_normalization 7 2023 (by decide) (by decide) (by decide) (by decide)
  refine ⟨?_, ?_, ?_⟩
  · have := h.1
    rw [if_pos (by decide)] at this
    exact this.trans (by decide)
  · exact h.2.2.2.1.trans (by decide)
  · exact h.2.2.2.2 "Present" (by decide)

/-! ### C2: years of experience always recomputed -/

theorem inferYearsStep_fst (now : YM) (r : CandidateRecord) :
    (inferYearsStep now r).1
      = { r with years_of_experience := .num (inferYearsOfExperience now r) } := rfl

theorem inferLocStep_years (r : CandidateRecord) :
    (inferLocStep r).1.years_of_experience = r.years_of_experience := by
  simp only [inferLocStep]
  split
  · split <;> rfl
  · rfl

theorem inferLocStep_prof (r : CandidateRecord) :
    (inferLocStep r).1.professional_experience = r.professional_experience := by
  simp only [inferLocStep]
  split
  · split <;> rfl
  · rfl

theorem inferPosStep_some (r : CandidateRecord) (s : CandidateRecord × List String)
    (h : inferPosStep r = some s) :
    (r.professional_experience = none ∧ s = (r, []))
      ∨ ∃ exps newExps msgs, r.professional_experience = some exps
          ∧ mapCollectO inferExpStep exps = some (newExps, msgs)
          ∧ s = ({ r with professional_experience := some newExps }, msgs) := by
  unfold inferPosStep at h
  rw [show (if ENABLE_INFERENCE then r.professional_experience else none)
      = r.professional_experience from rfl] at h
  split at h
  · rename_i exps heq
    split at h
    · cases h
    · rename_i ne ms heq2
      injection h with h'
      exact .inr ⟨exps, ne, ms, heq, heq2, h'.symm⟩
  · rename_i heq
    exact .inl ⟨heq, (Option.some.inj h).symm⟩

theorem inferPosStep_years (r : CandidateRecord) (s : CandidateRecord × List String)
    (h : inferPosStep r = some s) :
    s.1.years_of_experience = r.years_of_experience := by
  rcases inferPosStep_some r s h with ⟨_, rfl⟩ | ⟨e, ne, ms, _, _, rfl⟩ <;> rfl

/-- C2: the final years_of_experience value is always the one recomputed
from the professional_experience list (floor of merged months over 12,
and 0 for zero entries), independent of the raw extracted value; a raw
value of "15" with an empty experience list yields 0. -/
theorem c2_years_recomputed :
    (∀ (now : YM) (r : CandidateRecord) (out : CandidateRecord) (log : List String),
      applyInferenceLogic now r = some (out, log)
        → out.years_of_experience = .num (inferYearsOfExperience now r))
    ∧ (∀ (now : YM) (r : CandidateRecord) (v : JSVal),
      inferYearsOfExperience now { r with years_of_experience := v }
        = inferYearsOfExperience now r)
    ∧ ((applyInferenceLogic nowJul2024 record15).map (fun x => x.1.years_of_experience)
        = some (JSVal.num 0)) := by
  refine ⟨?_, fun _ _ _ => rfl, by decide⟩
  intro now r out log h
  simp only [applyInferenceLogic] at h
  cases hip : inferPosStep (inferLocStep (inferYearsStep now r).1).1 with
  | none => rw [hip] at h; cases h
  | some s3 =>
    rw [hip] at h
    injection h with h'
    have hout : out = s3.1 := congrArg Prod.fst h'.symm
    rw [hout, inferPosStep_years _ _ hip, inferLocStep_years, inferYearsStep_fst]

/-- C2 witness: the raw value "15" with an empty experience list is
overridden by the recomputed value 0. -/
theorem c2_years_witness :
    ({ record15 with years_of_experience := JSVal.num 0 } : CandidateRecord).years_of_experience
      = JSVal.num (inferYearsOfExperience nowJul2024 record15) :=
  c2_years_recomputed.1 nowJul2024 record15 _
    ["Calculated years_of_experience: 0 (was: 15)"] (by decide)

/-! ### C10: no position-type default without a position name -/

theorem mapCollectO_mem {α β : Type} (f : α → Option (β × List String)) :
    ∀ (l : List α) (out : List β) (msgs : List String),
      mapCollectO f l = some (out, msgs)
        → ∀ x ∈ l, ∃ y ms, f x = some (y, ms) ∧ y ∈ out := by
  intro l
  induction l with
  | nil => intro out msgs h x hx; cases hx
  | cons a t ih =>
    intro out msgs h x hx
    unfold mapCollectO at h
    cases hf : f a with
    | none => rw [hf] at h; cases h
    | some r =>
      rw [hf] at h
      cases hrec : mapCollectO f t with
      | none => rw [hrec] at h; cases h
      | some rs =>
        rw [hrec] at h
        injection h with h'
        have hout : out = r.1 :: rs.1 := (congrArg Prod.fst h').symm
        rcases List.mem_cons.mp hx with rfl | hx'
        · exact ⟨r.1, r.2, hf, by rw [hout]; exact List.mem_cons_self _ _⟩
        · obtain ⟨y, ms, hy, hmem⟩ := ih rs.1 rs.2 (by rw [hrec]) x hx'
          exact ⟨y, ms, hy, by rw [hout]; exact List.mem_cons_of_mem _ hmem⟩

theorem inferYearsStep_prof (now : YM) (r : CandidateRecord) :
    (inferYearsStep now r).1.professional_experience = r.professional_experience := rfl

/-- C10: for every experience entry whose positionType is falsy and
whose positionName is null or missing, the inference stage leaves
positionType null rather than defaulting to Full-time: the keyword
cascade only fires when a position title is present. -/
theorem c10_no_default_without_name (now : YM) (r : CandidateRecord)
    (exps : List ExpEntry) (e : ExpEntry)
    (hpe : r.professional_experience = some exps) (he : e ∈ exps)
    (hpt : e.positionType.truthy = false)
    (hpn : e.positionName = .null ∨ e.positionName = .undef)
    (out : CandidateRecord) (log : List String)
    (happ : applyInferenceLogic now r = some (out, log)) :
    ∃ outExps, out.professional_experience = some outExps
      ∧ { e with positionType := JSVal.null } ∈ outExps := by
  simp only [applyInferenceLogic] at happ
  cases hip : inferPosStep (inferLocStep (inferYearsStep now r).1).1 with
  | none => rw [hip] at happ; cases happ
  | some s3 =>
    rw [hip] at happ
    injection happ with h'
    have hout : out = s3.1 := congrArg Prod.fst h'.symm
    have hprof : (inferLocStep (inferYearsStep now r).1).1.professional_experience
        = some exps := by
      rw [inferLocStep_prof, inferYearsStep_prof, hpe]
    rcases inferPosStep_some _ _ hip with ⟨hnone, _⟩ | ⟨exps', newExps, msgs, hsome, hmc, hs3⟩
    · rw [hprof] at hnone; cases hnone
    · rw [hprof] at hsome
      injection hsome with hexps
      subst hexps
      obtain ⟨y, ms, hy, hmem⟩ := mapCollectO_mem inferExpStep exps newExps msgs hmc e he
      have hstep : inferExpStep e = some ({ e with positionType := JSVal.null }, []) := by
        unfold inferExpStep
        rw [if_pos (by rw [hpt])]
        have hinfer : inferPositionType e.positionName = some none := by
          rcases hpn with hn | hn <;> rw [hn] <;> rfl
        rw [hinfer]
      rw [hstep] at hy
      injection hy with hy'
      have hyy : y = { e with positionType := JSVal.null } := congrArg Prod.fst hy'.symm
      refine ⟨newExps, ?_, hyy ▸ hmem⟩
      rw [hout, hs3]

/-- C10 witness: a record whose only experience entry has neither a
position name nor a position type keeps positionType null. -/
theorem c10_no_default_witness :
    ∃ outExps,
      ({ namelessExpRecord with years_of_experience := JSVal.num 1 }
          : CandidateRecord).professional_experience = some outExps
        ∧ { namelessExp with positionType := JSVal.null } ∈ outExps :=
  c10_no_default_without_name nowJul2024 namelessExpRecord [namelessExp] namelessExp
    (by decide) (by decide) (by decide) (Or.inl rfl)
    { namelessExpRecord with years_of_experience := JSVal.num 1 }
    ["Calculated years_of_experience: 1 (was: null)"] (by decide)

/-! ### C6: functional-expertise merge -/

theorem validFE_subset (l : List JSVal) :
    ∀ x ∈ validateFunctionalExpertise (some l), x ∈ FUNCTIONAL_EXPERTISE_OPTIONS := by
  intro x hx
  unfold validateFunctionalExpertise at hx
  rw [List.mem_filterMap] at hx
  obtain ⟨item, _, hit⟩ := hx
  cases item with
  | str s =>
    by_cases hmem : s ∈ FUNCTIONAL_EXPERTISE_OPTIONS
    · have hx : s = x := by simpa [hmem] using hit
      exact hx ▸ hmem
    · simp [hmem] at hit
  | null => cases hit
  | undef => cases hit
  | num n => cases hit
  | bool b => cases hit
  | arrv => cases hit
  | objv => cases hit

theorem mergeLoopFE_spec : ∀ (es merged : List String),
    ∃ extra, mergeLoopFE merged es = merged ++ extra
      ∧ (∀ x ∈ extra, x ∈ es ∧ x ∉ merged)
      ∧ (8 ≤ merged.length → extra = [])
      ∧ (mergeLoopFE merged es).length ≤ max merged.length 8
      ∧ (∀ x ∈ es, x ∉ mergeLoopFE merged es → 8 ≤ (mergeLoopFE merged es).length) := by
  intro es
  induction es with
  | nil =>
    intro merged
    refine ⟨[], by simp [mergeLoopFE], by simp, fun _ => rfl, ?_, by simp⟩
    simp only [mergeLoopFE]
    exact le_max_left _ _
  | cons e es ih =>
    intro merged
    by_cases hc : 8 ≤ merged.length
    · have hm : mergeLoopFE merged (e :: es) = merged := by
        simp [mergeLoopFE, hc]
      refine ⟨[], by simp [hm], by simp, fun _ => rfl, ?_, ?_⟩
      · rw [hm]; exact le_max_left _ _
      · intro x hx hnx; rw [hm]; exact hc
    · by_cases he : e ∈ merged
      · obtain ⟨extra, h1, h2, h3, h4, h5⟩ := ih merged
        have hm : mergeLoopFE merged (e :: es) = mergeLoopFE merged es := by
          simp [mergeLoopFE, hc, he]
        refine ⟨extra, by rw [hm, h1],
          fun x hx => ⟨List.mem_cons_of_mem _ (h2 x hx).1, (h2 x hx).2⟩,
          fun h8 => absurd h8 hc, by rw [hm]; exact h4, ?_⟩
        intro x hx hnx
        rw [hm] at hnx ⊢
        rcases List.mem_cons.mp hx with rfl | hx'
        · exact absurd (h1 ▸ List.mem_append_left extra he) hnx
        · exact h5 x hx' hnx
      · obtain ⟨extra, h1, h2, h3, h4, h5⟩ := ih (merged ++ [e])
        have hm : mergeLoopFE merged (e :: es) = mergeLoopFE (merged ++ [e]) es := by
          simp [mergeLoopFE, hc, he]
        have hemem : e ∈ merged ++ [e] := by simp
        refine ⟨e :: extra, ?_, ?_, fun h8 => absurd h8 hc, ?_, ?_⟩
        · rw [hm, h1, List.append_assoc]
          rfl
        · intro x hx
          rcases List.mem_cons.mp hx with rfl | hx'
          · exact ⟨List.mem_cons_self _ _, he⟩
          · refine ⟨List.mem_cons_of_mem _ (h2 x hx').1, fun hxm => (h2 x hx').2 ?_⟩
            exact List.mem_append_left [e] hxm
        · rw [hm]
          refine le_trans h4 ?_
          have : merged.length + 1 ≤ 8 := by
            have := List.length_append merged [e]
            omega
          simp only [List.length_append, List.length_singleton]
          omega
        · intro x hx hnx
          rw [hm] at hnx ⊢
          rcases List.mem_cons.mp hx with rfl | hx'
          · exact absurd (h1 ▸ List.mem_append_left extra hemem) hnx
          · exact h5 x hx' hnx

/-- C6: the functional-expertise merge first filters both lists to the
closed category set, keeps every valid user selection as an unchanged
initial segment (original order and positions), appends only
not-yet-present valid parser values, never grows past the cap of 8
(beyond the user's own selections), and only omits a valid parser value
when the result is full; in particular 8 valid user selections plus 5
parser values distinct from them yield exactly the 8 user selections in
order. -/
theorem c6_expertise_merge :
    (∀ u p : List JSVal,
      ((mergeFunctionalExpertise (some u) (some p)).take
          (validateFunctionalExpertise (some u)).length
        = validateFunctionalExpertise (some u))
      ∧ (8 ≤ (validateFunctionalExpertise (some u)).length →
          mergeFunctionalExpertise (some u) (some p) = validateFunctionalExpertise (some u))
      ∧ (∀ x ∈ mergeFunctionalExpertise (some u) (some p),
          x ∈ validateFunctionalExpertise (some u)
            ∨ (x ∈ validateFunctionalExpertise (some p)
                ∧ x ∈ FUNCTIONAL_EXPERTISE_OPTIONS))
      ∧ (mergeFunctionalExpertise (some u) (some p)).length
          ≤ max (validateFunctionalExpertise (some u)).length 8
      ∧ (∀ x ∈ validateFunctionalExpertise (some p),
          x ∉ mergeFunctionalExpertise (some u) (some p)
            → 8 ≤ (mergeFunctionalExpertise (some u) (some p)).length))
    ∧ mergeFunctionalExpertise (some eightUserExpertise) (some fiveParserExpertise)
        = ["Trading", "Risk Management", "Quantitative Analysis", "Technology",
           "Operations", "Finance", "Leadership", "Legal"] := by
  constructor
  · intro u p
    obtain ⟨extra, h1, h2, h3, h4, h5⟩ :=
      mergeLoopFE_spec (validateFunctionalExpertise (some p))
        (validateFunctionalExpertise (some u))
    have hme : mergeFunctionalExpertise (some u) (some p)
        = mergeLoopFE (validateFunctionalExpertise (some u))
            (validateFunctionalExpertise (some p)) := rfl
    refine ⟨?_, ?_, ?_, ?_, ?_⟩
    · rw [hme, h1, List.take_left]
    · intro h8
      rw [hme, h1, h3 h8, List.append_nil]
    · intro x hx
      rw [hme, h1] at hx
      rcases List.mem_append.mp hx with hx' | hx'
      · exact .inl hx'
      · exact .inr ⟨(h2 x hx').1, validFE_subset p x (h2 x hx').1⟩
    · rw [hme]; exact h4
    · intro x hx hnx
      rw [hme] at hnx ⊢
      exact h5 x hx hnx
  · decide

/-- C6 witness: eight valid user selections saturate the cap, so the
merged result is exactly the user selection. -/
theorem c6_expertise_merge_witness :
    mergeFunctionalExpertise (some eightUserExpertise) (some fiveParserExpertise)
      = validateFunctionalExpertise (some eightUserExpertise) :=
  (c6_expertise_merge.1 eightUserExpertise fiveParserExpertise).2.1 (by decide)

/-! ### C5: master-level degree guard -/

theorem mapCollect_mem {α β : Type} (f : α → β × List String) :
    ∀ (l : List α) (x : α), x ∈ l →
      (f x).1 ∈ (mapCollect f l).1 ∧ ∀ m ∈ (f x).2, m ∈ (mapCollect f l).2 := by
  intro l
  induction l with
  | nil => intro x hx; cases hx
  | cons a t ih =>
    intro x hx
    simp only [mapCollect]
    rcases List.mem_cons.mp hx with rfl | hx'
    · exact ⟨List.mem_cons_self _ _, fun m hm => List.mem_append_left _ hm⟩
    · obtain ⟨h1, h2⟩ := ih x hx'
      exact ⟨List.mem_cons_of_mem _ h1, fun m hm => List.mem_append_right _ (h2 m hm)⟩

theorem eduSectionStep_some (edus : List EduEntry) :
    eduSectionStep (some edus)
      = (some (mapCollect eduStep edus).1, (mapCollect eduStep edus).2) := rfl

theorem validate_parts (r out : CandidateRecord) (log : List String)
    (h : validateAndCorrectData r = some (out, log)) :
    out.education_history = (eduSectionStep r.education_history).1
      ∧ ∀ m ∈ (eduSectionStep r.education_history).2, m ∈ log := by
  simp only [validateAndCorrectData] at h
  split at h
  · cases h
  · rename_i soft m7 heq
    injection h with h'
    rw [Prod.mk.injEq] at h'
    obtain ⟨h1, h2⟩ := h'
    constructor
    · rw [← h1]
    · intro m hm
      rw [← h2]
      simp only [List.mem_append]
      exact .inl (.inr hm)

/-- C5: whenever the fuzzy matcher routes a raw degree text containing a
master-level keyword to one of the Associate-tier values AA/AS/AAS, the
record validator forces the generic master-level value MSc on the
corresponding output entry and logs the correction; in particular the
classification never resolves to an Associate-tier value in that case. -/
theorem c5_degree_guard (r : CandidateRecord) (edus : List EduEntry) (edu : EduEntry)
    (raw t : String)
    (hedus : r.education_history = some edus) (hmem : edu ∈ edus)
    (hraw : edu.degreeType = .str raw)
    (hkw : masterKeywords.any (fun kw => incl (jsLower raw) kw) = true)
    (hres : validateFieldValue "degreeType" edu.degreeType DEGREE_TYPE_OPTIONS = .str t)
    (ht : t = "AA" ∨ t = "AS" ∨ t = "AAS")
    (out : CandidateRecord) (log : List String)
    (hval : validateAndCorrectData r = some (out, log)) :
    ∃ outEdus, out.education_history = some outEdus
      ∧ (eduStep edu).1 ∈ outEdus
      ∧ (eduStep edu).1.degreeType = .str "MSc"
      ∧ ("Corrected degreeType from " ++ t ++ " to MSc (master-level degree)") ∈ log := by
  obtain ⟨hout, hlog⟩ := validate_parts r out log hval
  rw [hedus, eduSectionStep_some] at hout hlog
  have hres' : validateFieldValue "degreeType" (JSVal.str raw) DEGREE_TYPE_OPTIONS
      = .str t := hraw ▸ hres
  have hguard : (eduStep edu).1.degreeType = .str "MSc"
      ∧ (eduStep edu).2
        = ["Corrected degreeType from " ++ t ++ " to MSc (master-level degree)"] := by
    simp only [eduStep, hraw, hres']
    rw [if_pos ⟨ht, hkw⟩]
    exact ⟨rfl, rfl⟩
  have h1 := mapCollect_mem eduStep edus edu hmem
  refine ⟨(mapCollect eduStep edus).1, hout, h1.1, hguard.1, ?_⟩
  apply hlog
  apply h1.2
  rw [hguard.2]
  exact List.mem_cons_self _ _

/-- C5 witness: "Master of Accounting" is mis-routed to AS by the
substring step and forced back to MSc by the validator. -/
theorem c5_degree_guard_witness :
    ∃ outEdus,
      masterAccountingRecordOut.education_history = some outEdus
      ∧ (eduStep masterAccountingEdu).1 ∈ outEdus
      ∧ (eduStep masterAccountingEdu).1.degreeType = .str "MSc"
      ∧ ("Corrected degreeType from " ++ "AS" ++ " to MSc (master-level degree)")
          ∈ ["Corrected degreeType from AS to MSc (master-level degree)"] :=
  c5_degree_guard masterAccountingRecord [masterAccountingEdu] masterAccountingEdu
    "Master of Accounting" "AS" (by decide) (by decide) (by decide) (by decide)
    (by decide) (.inr (.inl rfl)) _ _ (by decide)

/-! ### C1: interval merging computes the union -/

theorem monthIdx_maxEnd (a b : YM) :
    monthIdx (maxEnd a b) = max (monthIdx a) (monthIdx b) := by
  unfold maxEnd
  split <;> omega

theorem rangeMonths_valid {r : YM × YM} (h : monthIdx r.1 ≤ monthIdx r.2) :
    rangeMonths r = ((rangeSet r).card : Int) := by
  simp only [rangeSet, Nat.card_Ico, rangeMonths, monthIdx] at *
  rw [max_eq_right (by omega)]
  omega

theorem mem_unionSet {x : Nat} :
    ∀ {l : List (YM × YM)}, x ∈ unionSet l ↔ ∃ r ∈ l, x ∈ rangeSet r := by
  intro l
  induction l with
  | nil => simp [unionSet]
  | cons a t ih => simp [unionSet, Finset.mem_union, ih]

theorem mem_insertRange {y r : YM × YM} :
    ∀ {l : List (YM × YM)}, y ∈ insertRange r l ↔ y = r ∨ y ∈ l := by
  intro l
  induction l with
  | nil => simp [insertRange]
  | cons a t ih =>
    simp only [insertRange]
    split
    · simp [List.mem_cons]
    · simp only [List.mem_cons, ih]
      tauto

theorem unionSet_insertRange (r : YM × YM) :
    ∀ (l : List (YM × YM)), unionSet (insertRange r l) = rangeSet r ∪ unionSet l := by
  intro l
  induction l with
  | nil => rfl
  | cons a t ih =>
    simp only [insertRange]
    split
    · rfl
    · simp only [unionSet, ih]
      rw [Finset.union_left_comm]

theorem unionSet_sortRanges (l : List (YM × YM)) :
    unionSet (sortRanges l) = unionSet l := by
  induction l with
  | nil => rfl
  | cons a t ih =>
    simp only [sortRanges]
    rw [unionSet_insertRange, ih]
    rfl

theorem mem_sortRanges {y : YM × YM} :
    ∀ {l : List (YM × YM)}, y ∈ sortRanges l ↔ y ∈ l := by
  intro l
  induction l with
  | nil => simp [sortRanges]
  | cons a t ih =>
    simp only [sortRanges, mem_insertRange, List.mem_cons, ih]

theorem pairwise_insertRange {r : YM × YM} :
    ∀ {l : List (YM × YM)},
      List.Pairwise (fun a b => monthIdx a.1 ≤ monthIdx b.1) l →
      List.Pairwise (fun a b => monthIdx a.1 ≤ monthIdx b.1) (insertRange r l) := by
  intro l
  induction l with
  | nil => intro _; simp [insertRange]
  | cons a t ih =>
    intro hp
    rw [List.pairwise_cons] at hp
    simp only [insertRange]
    split
    · rename_i hle
      rw [List.pairwise_cons]
      refine ⟨?_, List.pairwise_cons.mpr hp⟩
      intro b hb
      rcases List.mem_cons.mp hb with rfl | hb'
      · exact hle
      · exact le_trans hle (hp.1 b hb')
    · rename_i hgt
      rw [List.pairwise_cons]
      refine ⟨?_, ih hp.2⟩
      intro b hb
      rcases mem_insertRange.mp hb with rfl | hb'
      · omega
      · exact hp.1 b hb'

theorem pairwise_sortRanges (l : List (YM × YM)) :
    List.Pairwise (fun a b => monthIdx a.1 ≤ monthIdx b.1) (sortRanges l) := by
  induction l with
  | nil => simp [sortRanges]
  | cons a t ih => exact pairwise_insertRange ih

theorem resolveRange_valid {now : YM} {e : ExpEntry} {r : YM × YM}
    (h : resolveRange now e = some r) : monthIdx r.1 ≤ monthIdx r.2 := by
  simp only [resolveRange] at h
  split at h
  · cases h
  · split at h
    · split at h
      · rename_i hle
        injection h with h'
        rw [← h']
        exact hle
      · cases h
    · cases h

theorem mergeLoop_card :
    ∀ (rest : List (YM × YM)) (last : YM × YM),
      monthIdx last.1 ≤ monthIdx last.2 →
      (∀ r ∈ rest, monthIdx r.1 ≤ monthIdx r.2) →
      (∀ r ∈ rest, monthIdx last.1 ≤ monthIdx r.1) →
      List.Pairwise (fun a b => monthIdx a.1 ≤ monthIdx b.1) rest →
      ((mergeLoop last rest).map rangeMonths).foldr (· + ·) 0
        = ((rangeSet last ∪ unionSet rest).card : Int) := by
  intro rest
  induction rest with
  | nil =>
    intro last hlast _ _ _
    simp [mergeLoop, unionSet, rangeMonths_valid hlast]
  | cons cur rest ih =>
    intro last hlast hv hstart hpw
    rw [List.pairwise_cons] at hpw
    by_cases hov : monthIdx cur.1 ≤ monthIdx last.2
    · have hunion : rangeSet (last.1, maxEnd last.2 cur.2) = rangeSet last ∪ rangeSet cur := by
        have h1 := hlast
        have h2 := hv cur (List.mem_cons_self _ _)
        have h3 := hstart cur (List.mem_cons_self _ _)
        ext x
        simp only [rangeSet, Finset.mem_Ico, Finset.mem_union, monthIdx_maxEnd]
        omega
      have hres := ih (last.1, maxEnd last.2 cur.2)
        (by simp only [monthIdx_maxEnd]; omega)
        (fun r hr => hv r (List.mem_cons_of_mem _ hr))
        (fun r hr => hstart r (List.mem_cons_of_mem _ hr))
        hpw.2
      simp only [mergeLoop, if_pos hov]
      rw [hres, hunion]
      simp [unionSet, Finset.union_assoc]
    · have hdisj : Disjoint (rangeSet last) (rangeSet cur ∪ unionSet rest) := by
        rw [Finset.disjoint_left]
        intro x hx hx'
        simp only [rangeSet, Finset.mem_Ico] at hx
        have hlow : monthIdx cur.1 ≤ x := by
          rcases Finset.mem_union.mp hx' with hc | hu
          · simp only [rangeSet, Finset.mem_Ico] at hc
            omega
          · obtain ⟨r, hr, hxr⟩ := mem_unionSet.mp hu
            simp only [rangeSet, Finset.mem_Ico] at hxr
            have := hpw.1 r hr
            omega
        omega
      have hres := ih cur (hv cur (List.mem_cons_self _ _))
        (fun r hr => hv r (List.mem_cons_of_mem _ hr))
        (fun r hr => hpw.1 r hr)
        hpw.2
      simp only [mergeLoop, if_neg hov, List.map_cons, List.foldr_cons]
      rw [hres, rangeMonths_valid hlast]
      simp only [unionSet]
      rw [Finset.card_union_of_disjoint hdisj]
      push_cast
      ring

theorem sortRanges_length (l : List (YM × YM)) : (sortRanges l).length = l.length := by
  induction l with
  | nil => rfl
  | cons a t ih =>
    have hins : ∀ (r : YM × YM) (m : List (YM × YM)),
        (insertRange r m).length = m.length + 1 := by
      intro r m
      induction m with
      | nil => rfl
      | cons b s ihm =>
        simp only [insertRange]
        split
        · rfl
        · simp [ihm]
    simp [sortRanges, hins, ih]

/-- C1: the interval merger computes the total as the size of the union
of the resolved kept intervals, never double-counting overlap, and the
spec's two examples evaluate to 24 months each. -/
theorem c1_interval_merge_union :
    (∀ (now : YM) (experiences : Option (List ExpEntry)),
      calculateTotalWorkMonths now experiences
        = ((unionSet (resolvedRanges now experiences)).card : Int))
    ∧ calculateTotalWorkMonths nowJul2024 (some overlapExps) = 24
    ∧ calculateTotalWorkMonths nowJul2024 (some disjointExps) = 24 := by
  refine ⟨?_, by decide, by decide⟩
  intro now experiences
  cases experiences with
  | none => rfl
  | some exps =>
    simp only [calculateTotalWorkMonths, resolvedRanges]
    by_cases hlen : exps.length = 0
    · rw [if_pos hlen]
      rw [List.length_eq_zero] at hlen
      subst hlen
      rfl
    · rw [if_neg hlen]
      by_cases hrlen : (exps.filterMap (resolveRange now)).length = 0
      · rw [if_pos hrlen]
        rw [List.length_eq_zero] at hrlen
        rw [hrlen]
        rfl
      · rw [if_neg hrlen]
        have hvalid : ∀ r ∈ exps.filterMap (resolveRange now),
            monthIdx r.1 ≤ monthIdx r.2 := by
          intro r hr
          rw [List.mem_filterMap] at hr
          obtain ⟨e, _, he⟩ := hr
          exact resolveRange_valid he
        cases hs : sortRanges (exps.filterMap (resolveRange now)) with
        | nil =>
          exfalso
          have := sortRanges_length (exps.filterMap (resolveRange now))
          rw [hs] at this
          exact hrlen this.symm
        | cons r rs =>
          have hpw := pairwise_sortRanges (exps.filterMap (resolveRange now))
          rw [hs, List.pairwise_cons] at hpw
          have hvalid' : ∀ x ∈ r :: rs, monthIdx x.1 ≤ monthIdx x.2 := by
            intro x hx
            apply hvalid
            rw [← mem_sortRanges (l := exps.filterMap (resolveRange now)), hs]
            exact hx
          have hml := mergeLoop_card rs r
            (hvalid' r (List.mem_cons_self _ _))
            (fun x hx => hvalid' x (List.mem_cons_of_mem _ hx))
            (fun x hx => hpw.1 x hx)
            hpw.2
          simp only [mergeRanges]
          rw [hml]
          have : rangeSet r ∪ unionSet rs = unionSet (r :: rs) := rfl
          rw [this, ← hs, unionSet_sortRanges]

/-! ### C3: validator idempotence -/

theorem toList_ne_nil {s : String} (h : s ≠ "") : s.toList ≠ [] := by
  intro he
  exact h (by rw [← mk_toList s, he])

theorem ne_empty_of_toList {s : String} (h : s.toList ≠ []) : s ≠ "" := by
  intro he
  subst he
  exact h rfl

theorem head?_append_left {A B : List Char} (h : A ≠ []) :
    (A ++ B).head? = A.head? := by
  cases A with
  | nil => exact absurd rfl h
  | cons a t => rfl

theorem getLast?_append_right {A B : List Char} (h : B ≠ []) :
    (A ++ B).getLast? = B.getLast? := by
  rw [← List.head?_reverse, List.reverse_append, ← List.head?_reverse B]
  cases hb : B.reverse with
  | nil => exact absurd (List.reverse_eq_nil_iff.mp hb) h
  | cons x xs => rfl

theorem leads_self_append (p t : List Char) : leads p (p ++ t) = true := by
  induction p with
  | nil => rfl
  | cons c cs ih => simp [leads, ih]

theorem jsTrim_lit_append (p u : String)
    (hp1 : ∀ c, p.toList.head? = some c → wsChar c = false)
    (hpne : p.toList ≠ []) (hune : u.toList ≠ [])
    (hu : ∀ c, u.toList.getLast? = some c → wsChar c = false) :
    jsTrim (p ++ u) = p ++ u := by
  have h1 : trimChars ((p ++ u).toList) = (p ++ u).toList := by
    apply trimChars_eq_self
    · intro c hc
      rw [toList_append, head?_append_left hpne] at hc
      exact hp1 c hc
    · intro c hc
      rw [toList_append, getLast?_append_right hune] at hc
      exact hu c hc
  unfold jsTrim
  rw [h1]
  exact mk_toList _

theorem jsTrim_getLast_nonWs (s : String) {c : Char}
    (h : (jsTrim s).toList.getLast? = some c) : wsChar c = false :=
  trimChars_getLast s.toList h

theorem validateAndCorrectUrl_shape (v : JSVal) :
    validateAndCorrectUrl v = .null
      ∨ ∃ t, validateAndCorrectUrl v = .str t ∧ t ≠ ""
          ∧ validateAndCorrectUrl (.str t) = .str t := by
  cases v
  case str s =>
    by_cases hs : s = ""
    · left; simp [validateAndCorrectUrl, hs]
    · by_cases ht : jsTrim s = ""
      · left; simp [validateAndCorrectUrl, hs, ht]
      · by_cases hh : (!jsStartsWith (jsTrim s) "http://"
            && !jsStartsWith (jsTrim s) "https://") = true
        · right
          have hune : (jsTrim s).toList ≠ [] := toList_ne_nil ht
          have htr : jsTrim ("https://" ++ jsTrim s) = "https://" ++ jsTrim s := by
            apply jsTrim_lit_append
            · intro c hc
              have hc' : 'h' = c := Option.some.inj hc
              subst hc'
              decide
            · decide
            · exact hune
            · intro c hc
              exact jsTrim_getLast_nonWs s hc
          have hne : ("https://" ++ jsTrim s) ≠ "" := by
            apply ne_empty_of_toList
            rw [toList_append]
            simp
          have hsw : jsStartsWith ("https://" ++ jsTrim s) "https://" = true := by
            unfold jsStartsWith
            rw [toList_append]
            exact leads_self_append _ _
          refine ⟨"https://" ++ jsTrim s, ?_, hne, ?_⟩
          · simp only [validateAndCorrectUrl]
            rw [if_neg hs, if_neg ht, if_pos hh]
          · simp only [validateAndCorrectUrl]
            rw [if_neg hne, htr, if_neg hne]
            rw [if_neg (by simp [hsw])]
        · right
          have hh' : (!jsStartsWith (jsTrim s) "http://"
              && !jsStartsWith (jsTrim s) "https://") = false := by
            simpa using hh
          refine ⟨jsTrim s, ?_, ht, ?_⟩
          · simp only [validateAndCorrectUrl]
            rw [if_neg hs, if_neg ht, if_neg (by simp [hh'])]
          · simp only [validateAndCorrectUrl]
            rw [if_neg ht, jsTrim_idem s, if_neg ht, if_neg (by simp [hh'])]
  all_goals exact Or.inl rfl

theorem validateAndCorrectUrl_idem (v : JSVal) :
    validateAndCorrectUrl (validateAndCorrectUrl v) = validateAndCorrectUrl v := by
  rcases validateAndCorrectUrl_shape v with h | ⟨t, h, hne, hfix⟩
  · rw [h]; rfl
  · rw [h, hfix]

theorem urlFieldStep_idem (f : String) (v : JSVal) :
    (urlFieldStep f (urlFieldStep f v).1).1 = (urlFieldStep f v).1 := by
  by_cases hv : v.truthy = true
  · have h1 : (urlFieldStep f v).1 = validateAndCorrectUrl v := by
      simp [urlFieldStep, hv]
    rw [h1]
    rcases validateAndCorrectUrl_shape v with h | ⟨t, h, hne, hfix⟩
    · rw [h]; rfl
    · rw [h]
      have htr : JSVal.truthy (.str t) = true := by simp [JSVal.truthy, hne]
      simp [urlFieldStep, htr, hfix]
  · have hv' : v.truthy = false := by simpa using hv
    have h1 : (urlFieldStep f v).1 = v := by simp [urlFieldStep, hv']
    rw [h1]
    exact h1

theorem validateEmail_shape (v : JSVal) :
    validateEmail v = .null
      ∨ ∃ t, validateEmail v = .str t ∧ t ≠ "" ∧ validateEmail (.str t) = .str t := by
  cases v
  case str s =>
    by_cases hs : s = ""
    · left; simp [validateEmail, hs]
    · by_cases hm : emailShape (jsTrim s) = true
      · right
        have hne : jsTrim s ≠ "" := by
          intro he
          rw [he] at hm
          exact absurd hm (by decide)
        refine ⟨jsTrim s, ?_, hne, ?_⟩
        · simp only [validateEmail]
          rw [if_neg hs, if_pos hm]
        · simp only [validateEmail]
          rw [if_neg hne, jsTrim_idem s, if_pos hm]
      · left
        have hm' : emailShape (jsTrim s) = false := by simpa using hm
        simp only [validateEmail]
        rw [if_neg hs, if_neg (by simp [hm'])]
  all_goals exact Or.inl rfl

theorem emailFieldStep_idem (v : JSVal) :
    (emailFieldStep (emailFieldStep v).1).1 = (emailFieldStep v).1 := by
  by_cases hv : v.truthy = true
  · have h1 : (emailFieldStep v).1 = validateEmail v := by
      simp [emailFieldStep, hv]
    rw [h1]
    rcases validateEmail_shape v with h | ⟨t, h, hne, hfix⟩
    · rw [h]; rfl
    · rw [h]
      have htr : JSVal.truthy (.str t) = true := by simp [JSVal.truthy, hne]
      simp [emailFieldStep, htr, hfix]
  · have hv' : v.truthy = false := by simpa using hv
    have h1 : (emailFieldStep v).1 = v := by simp [emailFieldStep, hv']
    rw [h1]
    exact h1

theorem validateAndCorrectCountryCode_shape (v : JSVal) :
    validateAndCorrectCountryCode v = .null
      ∨ ∃ t, validateAndCorrectCountryCode v = .str t ∧ t ≠ ""
          ∧ validateAndCorrectCountryCode (.str t) = .str t := by
  cases v
  case str s =>
    by_cases hs : s = ""
    · left; simp [validateAndCorrectCountryCode, hs]
    · by_cases ht : jsTrim s = ""
      · left; simp [validateAndCorrectCountryCode, hs, ht]
      · by_cases hh : (!jsStartsWith (jsTrim s) "+") = true
        · right
          have hune : (jsTrim s).toList ≠ [] := toList_ne_nil ht
          have htr : jsTrim ("+" ++ jsTrim s) = "+" ++ jsTrim s := by
            apply jsTrim_lit_append
            · intro c hc
              have hc' : '+' = c := Option.some.inj hc
              subst hc'
              decide
            · decide
            · exact hune
            · intro c hc
              exact jsTrim_getLast_nonWs s hc
          have hne : ("+" ++ jsTrim s) ≠ "" := by
            apply ne_empty_of_toList
            rw [toList_append]
            simp
          have hsw : jsStartsWith ("+" ++ jsTrim s) "+" = true := by
            unfold jsStartsWith
            rw [toList_append]
            exact leads_self_append _ _
          refine ⟨"+" ++ jsTrim s, ?_, hne, ?_⟩
          · simp only [validateAndCorrectCountryCode]
            rw [if_neg hs, if_neg ht, if_pos hh]
          · simp only [validateAndCorrectCountryCode]
            rw [if_neg hne, htr, if_neg hne]
            rw [if_neg (by simp [hsw])]
        · right
          have hh' : jsStartsWith (jsTrim s) "+" = true := by simpa using hh
          refine ⟨jsTrim s, ?_, ht, ?_⟩
          · simp only [validateAndCorrectCountryCode]
            rw [if_neg hs, if_neg ht, if_neg (by simp [hh'])]
          · simp only [validateAndCorrectCountryCode]
            rw [if_neg ht, jsTrim_idem s, if_neg ht, if_neg (by simp [hh'])]
  all_goals exact Or.inl rfl

theorem ccFieldStep_idem (v : JSVal) :
    (ccFieldStep (ccFieldStep v).1).1 = (ccFieldStep v).1 := by
  by_cases hv : v.truthy = true
  · have h1 : (ccFieldStep v).1 = validateAndCorrectCountryCode v := by
      simp [ccFieldStep, hv]
    rw [h1]
    rcases validateAndCorrectCountryCode_shape v with h | ⟨t, h, hne, hfix⟩
    · rw [h]; rfl
    · rw [h]
      have htr : JSVal.truthy (.str t) = true := by simp [JSVal.truthy, hne]
      simp [ccFieldStep, htr, hfix]
  · have hv' : v.truthy = false := by simpa using hv
    have h1 : (ccFieldStep v).1 = v := by simp [ccFieldStep, hv']
    rw [h1]
    exact h1

theorem matchMonthYear_keep {l m y : List Char}
    (h : matchMonthYear l = some (m, y)) :
    validateAndCorrectDate (.str (String.mk y ++ "-" ++ padMonth m))
      = .str (String.mk y ++ "-" ++ padMonth m) := by
  unfold matchMonthYear at h
  split at h
  · split at h
    · rename_i m1 sep y1 y2 y3 y4 hcond
      simp only [Bool.and_eq_true, Bool.or_eq_true, beq_iff_eq] at hcond
      obtain ⟨⟨⟨⟨⟨hm1, hsep⟩, hy1⟩, hy2⟩, hy3⟩, hy4⟩ := hcond
      injection h with h'
      rw [Prod.mk.injEq] at h'
      obtain ⟨hm, hy⟩ := h'
      subst hm
      subst hy
      have he : (String.mk [y1, y2, y3, y4] ++ "-" ++ padMonth [m1])
          = String.mk [y1, y2, y3, y4, '-', '0', m1] := rfl
      rw [he]
      exact dateKeep7 y1 y2 y3 y4 '0' m1 hy1 hy2 hy3 hy4 (by decide) hm1
    · cases h
  · split at h
    · rename_i m1 m2 sep y1 y2 y3 y4 hcond
      simp only [Bool.and_eq_true, Bool.or_eq_true, beq_iff_eq] at hcond
      obtain ⟨⟨⟨⟨⟨⟨hm1, hm2⟩, hsep⟩, hy1⟩, hy2⟩, hy3⟩, hy4⟩ := hcond
      injection h with h'
      rw [Prod.mk.injEq] at h'
      obtain ⟨hm, hy⟩ := h'
      subst hm
      subst hy
      have he : (String.mk [y1, y2, y3, y4] ++ "-" ++ padMonth [m1, m2])
          = String.mk [y1, y2, y3, y4, '-', m1, m2] := rfl
      rw [he]
      exact dateKeep7 y1 y2 y3 y4 m1 m2 hy1 hy2 hy3 hy4 hm1 hm2
    · cases h
  · cases h

theorem isYYYYMM_inv {l : List Char} (h : isYYYYMM l = true) :
    ∃ c1 c2 c3 c4 ma mb, l = [c1, c2, c3, c4, '-', ma, mb]
      ∧ c1.isDigit = true ∧ c2.isDigit = true ∧ c3.isDigit = true ∧ c4.isDigit = true
      ∧ ma.isDigit = true ∧ mb.isDigit = true := by
  unfold isYYYYMM at h
  split at h
  · rename_i y1 y2 y3 y4 sep m1 m2
    simp only [Bool.and_eq_true, beq_iff_eq] at h
    obtain ⟨⟨⟨⟨⟨⟨h1, h2⟩, h3⟩, h4⟩, hsep⟩, hm1⟩, hm2⟩ := h
    subst hsep
    exact ⟨y1, y2, y3, y4, m1, m2, rfl, h1, h2, h3, h4, hm1, hm2⟩
  · exact absurd h (by simp)

theorem isYYYYMM_keep {s : String} (h : isYYYYMM s.toList = true) :
    validateAndCorrectDate (.str s) = .str s := by
  obtain ⟨c1, c2, c3, c4, ma, mb, hl, h1, h2, h3, h4, hma, hmb⟩ := isYYYYMM_inv h
  have hs : s = String.mk [c1, c2, c3, c4, '-', ma, mb] := by
    rw [← mk_toList s, hl]
  rw [hs]
  exact dateKeep7 c1 c2 c3 c4 ma mb h1 h2 h3 h4 hma hmb

theorem isYYYY_inv {l : List Char} (h : isYYYY l = true) :
    ∃ c1 c2 c3 c4, l = [c1, c2, c3, c4]
      ∧ c1.isDigit = true ∧ c2.isDigit = true ∧ c3.isDigit = true ∧ c4.isDigit = true := by
  unfold isYYYY at h
  split at h
  · rename_i c1 c2 c3 c4
    simp only [Bool.and_eq_true] at h
    obtain ⟨⟨⟨h1, h2⟩, h3⟩, h4⟩ := h
    exact ⟨c1, c2, c3, c4, rfl, h1, h2, h3, h4⟩
  · exact absurd h (by simp)

theorem isYYYY_keep {s : String} (h : isYYYY s.toList = true) :
    validateAndCorrectDate (.str (s ++ "-01")) = .str (s ++ "-01") := by
  obtain ⟨c1, c2, c3, c4, hl, h1, h2, h3, h4⟩ := isYYYY_inv h
  have hs : s = String.mk [c1, c2, c3, c4] := by
    rw [← mk_toList s, hl]
  rw [hs]
  have he : (String.mk [c1, c2, c3, c4] ++ "-01")
      = String.mk [c1, c2, c3, c4, '-', '0', '1'] := rfl
  rw [he]
  exact dateKeep7 c1 c2 c3 c4 '0' '1' h1 h2 h3 h4 (by decide) (by decide)

theorem dateFallThrough (s : String)
    (h1 : jsLower (jsTrim s) ≠ "")
    (h2 : jsLower (jsTrim s) ≠ "present")
    (h3 : matchMonthYear (jsLower (jsTrim s)).toList = none)
    (h4 : isYYYYMM (jsLower (jsTrim s)).toList = false)
    (h5 : isYYYY (jsLower (jsTrim s)).toList = false) :
    validateAndCorrectDate (.str s) = .str (jsLower (jsTrim s)) := by
  have hs : s ≠ "" := by rintro rfl; exact h1 rfl
  have h4' : isYYYYMM (jsLower (jsTrim s)).data = false := h4
  have h5' : isYYYY (jsLower (jsTrim s)).data = false := h5
  simp only [validateAndCorrectDate]
  rw [if_neg hs, if_neg h1, if_neg h2, h3]
  simp [h4, h5, h4', h5']

theorem validateAndCorrectDate_shape (v : JSVal) :
    validateAndCorrectDate v = .null
      ∨ ∃ t, validateAndCorrectDate v = .str t
          ∧ validateAndCorrectDate (.str t) = .str t := by
  cases v
  case str s =>
    by_cases hs : s = ""
    · left; simp [validateAndCorrectDate, hs]
    · by_cases ht : jsLower (jsTrim s) = ""
      · left
        simp only [validateAndCorrectDate]
        rw [if_neg hs, if_pos ht]
      · by_cases hp : jsLower (jsTrim s) = "present"
        · right
          exact ⟨"present", datePresent s hp, by decide⟩
        · cases hmy : matchMonthYear (jsLower (jsTrim s)).toList with
          | some pr =>
            obtain ⟨m, y⟩ := pr
            right
            refine ⟨String.mk y ++ "-" ++ padMonth m, ?_, matchMonthYear_keep hmy⟩
            simp only [validateAndCorrectDate]
            rw [if_neg hs, if_neg ht, if_neg hp, hmy]
          | none =>
            by_cases h7 : isYYYYMM (jsLower (jsTrim s)).toList = true
            · right
              refine ⟨jsLower (jsTrim s), ?_, isYYYYMM_keep h7⟩
              simp only [validateAndCorrectDate]
              rw [if_neg hs, if_neg ht, if_neg hp, hmy]
              have h7' : isYYYYMM (jsLower (jsTrim s)).data = true := h7
              simp [h7, h7']
            · by_cases h4 : isYYYY (jsLower (jsTrim s)).toList = true
              · right
                refine ⟨jsLower (jsTrim s) ++ "-01", ?_, isYYYY_keep h4⟩
                simp only [validateAndCorrectDate]
                rw [if_neg hs, if_neg ht, if_neg hp, hmy]
                have h7' : isYYYYMM (jsLower (jsTrim s)).toList = false := by simpa using h7
                have h7'' : isYYYYMM (jsLower (jsTrim s)).data = false := h7'
                have h4' : isYYYY (jsLower (jsTrim s)).data = true := h4
                simp [h7', h7'', h4, h4']
              · right
                have h7' : isYYYYMM (jsLower (jsTrim s)).toList = false := by simpa using h7
                have h4' : isYYYY (jsLower (jsTrim s)).toList = false := by simpa using h4
                refine ⟨jsLower (jsTrim s), dateFallThrough s ht hp hmy h7' h4', ?_⟩
                have hfix := lowTrim_fix s
                have hout := dateFallThrough (jsLower (jsTrim s))
                  (by rw [hfix]; exact ht) (by rw [hfix]; exact hp)
                  (by rw [hfix]; exact hmy) (by rw [hfix]; exact h7')
                  (by rw [hfix]; exact h4')
                rw [hfix] at hout
                exact hout
  all_goals exact Or.inl rfl

theorem validateAndCorrectDate_idem (v : JSVal) :
    validateAndCorrectDate (validateAndCorrectDate v) = validateAndCorrectDate v := by
  rcases validateAndCorrectDate_shape v with h | ⟨t, h, hfix⟩
  · rw [h]; rfl
  · rw [h, hfix]

theorem find?_lower_self {l : List String} {v : String}
    (hp : List.Pairwise (fun a b => jsLower a ≠ jsLower b) l) (hv : v ∈ l) :
    l.find? (fun opt => jsLower opt == jsLower v) = some v := by
  induction l with
  | nil => cases hv
  | cons a t ih =>
    rw [List.pairwise_cons] at hp
    rcases List.mem_cons.mp hv with rfl | hvt
    · simp [List.find?_cons]
    · have hne : jsLower a ≠ jsLower v := hp.1 v hvt
      rw [List.find?_cons]
      have hb : (jsLower a == jsLower v) = false := by simp [hne]
      rw [hb]
      exact ih hp.2 hvt

theorem optionValues_ne_empty {opts : List FOpt} {v : String}
    (h : v ∈ optionValues opts) : v ≠ "" := by
  have := (List.mem_filter.mp h).2
  simpa using this

theorem fuzzy_fixpoint {opts : List FOpt} {v : String}
    (hgood : goodOptions opts = true) (hv : v ∈ optionValues opts) :
    fuzzyMatchToOptions (.str v) opts = some v := by
  have hgood' := hgood
  unfold goodOptions at hgood'
  rw [Bool.and_eq_true, decide_eq_true_eq, List.all_eq_true] at hgood'
  obtain ⟨hpw, htr⟩ := hgood'
  have hne : v ≠ "" := optionValues_ne_empty hv
  have hlt : jsTrim (jsLower v) = jsLower v := by
    have := htr v hv
    simpa using this
  simp only [fuzzyMatchToOptions]
  rw [if_neg hne, hlt, find?_lower_self hpw hv]

theorem catOk_mem {v : JSVal} {opts : List FOpt} {o : String}
    (hok : catOk v opts = true) (hf : fuzzyMatchToOptions v opts = some o) :
    o ∈ optionValues opts := by
  unfold catOk at hok
  rw [hf] at hok
  exact List.mem_of_elem_eq_true hok

theorem validateFieldValue_fuzzy (fieldName : String) (v : JSVal) (opts : List FOpt)
    (hurl : fieldName ∉ (["linkedinUrl", "githubUrl", "portfolioUrl", "url"] : List String))
    (hemail : fieldName ≠ "email") (hcc : fieldName ≠ "country_code")
    (hdate : (incl (jsLower fieldName) "date" || fieldName = "startDate"
        || fieldName = "endDate") = false)
    (hlen : 0 < opts.length) (hv : ¬(v = .null ∨ v = .undef)) :
    validateFieldValue fieldName v opts
      = match fuzzyMatchToOptions v opts with
        | some o => .str o
        | none => .null := by
  simp only [validateFieldValue]
  rw [if_neg hv, if_neg hurl, if_neg hemail, if_neg hcc, if_neg (by simp [hdate]),
    if_pos hlen]

theorem catField_shape (fieldName : String) (v : JSVal) (opts : List FOpt)
    (hurl : fieldName ∉ (["linkedinUrl", "githubUrl", "portfolioUrl", "url"] : List String))
    (hemail : fieldName ≠ "email") (hcc : fieldName ≠ "country_code")
    (hdate : (incl (jsLower fieldName) "date" || fieldName = "startDate"
        || fieldName = "endDate") = false)
    (hlen : 0 < opts.length) (hok : catOk v opts = true) :
    validateFieldValue fieldName v opts = .null
      ∨ ∃ t, validateFieldValue fieldName v opts = .str t ∧ t ∈ optionValues opts := by
  by_cases hv : v = .null ∨ v = .undef
  · left
    simp only [validateFieldValue]
    rw [if_pos hv]
  · rw [validateFieldValue_fuzzy fieldName v opts hurl hemail hcc hdate hlen hv]
    cases hf : fuzzyMatchToOptions v opts with
    | none => left; rfl
    | some o =>
      right
      exact ⟨o, rfl, catOk_mem hok hf⟩

theorem catField_idem (fieldName : String) (v : JSVal) (opts : List FOpt)
    (hurl : fieldName ∉ (["linkedinUrl", "githubUrl", "portfolioUrl", "url"] : List String))
    (hemail : fieldName ≠ "email") (hcc : fieldName ≠ "country_code")
    (hdate : (incl (jsLower fieldName) "date" || fieldName = "startDate"
        || fieldName = "endDate") = false)
    (hlen : 0 < opts.length) (hgood : goodOptions opts = true) (hok : catOk v opts = true) :
    validateFieldValue fieldName (validateFieldValue fieldName v opts) opts
      = validateFieldValue fieldName v opts := by
  rcases catField_shape fieldName v opts hurl hemail hcc hdate hlen hok with h | ⟨t, h, hmem⟩
  · rw [h]
    simp only [validateFieldValue]
    rw [if_pos (Or.inl trivial)]
  · rw [h]
    have hv : ¬(JSVal.str t = .null ∨ JSVal.str t = .undef) := by simp
    rw [validateFieldValue_fuzzy fieldName (.str t) opts hurl hemail hcc hdate hlen hv,
      fuzzy_fixpoint hgood hmem]

theorem skillLevelStep_idem (sk : SkillEntry)
    (hok : catOk sk.level SKILL_PROFICIENCY_OPTIONS = true) :
    skillLevelStep (skillLevelStep sk) = skillLevelStep sk := by
  have h := catField_idem "level" sk.level SKILL_PROFICIENCY_OPTIONS (by decide) (by decide)
    (by decide) (by decide) (by decide) (by decide) hok
  show ({ sk with level := (validateFieldValue "level"
      (validateFieldValue "level" sk.level SKILL_PROFICIENCY_OPTIONS)
      SKILL_PROFICIENCY_OPTIONS) } : SkillEntry)
    = { sk with level := validateFieldValue "level" sk.level SKILL_PROFICIENCY_OPTIONS }
  rw [h]

theorem certStep_idem (c : CertEntry) : certStep (certStep c) = certStep c := by
  show ({ c with
      dateObtained := validateAndCorrectDate (validateAndCorrectDate c.dateObtained),
      expiryDate := validateAndCorrectDate (validateAndCorrectDate c.expiryDate),
      url := validateAndCorrectUrl (validateAndCorrectUrl c.url) } : CertEntry)
    = { c with
      dateObtained := validateAndCorrectDate c.dateObtained,
      expiryDate := validateAndCorrectDate c.expiryDate,
      url := validateAndCorrectUrl c.url }
  rw [validateAndCorrectDate_idem c.dateObtained, validateAndCorrectDate_idem c.expiryDate,
    validateAndCorrectUrl_idem c.url]

theorem expStep_idem (x : ExpEntry)
    (h1 : catOk x.positionType POSITION_TYPE_OPTIONS = true)
    (h2 : catOk x.country COUNTRY_OPTIONS = true) :
    expStep (expStep x) = expStep x := by
  have hp := catField_idem "positionType" x.positionType POSITION_TYPE_OPTIONS (by decide)
    (by decide) (by decide) (by decide) (by decide) (by decide) h1
  have hc := catField_idem "country" x.country COUNTRY_OPTIONS (by decide)
    (by decide) (by decide) (by decide) (by decide) (by decide) h2
  show ({ x with
      positionType := (validateFieldValue "positionType"
        (validateFieldValue "positionType" x.positionType POSITION_TYPE_OPTIONS)
        POSITION_TYPE_OPTIONS),
      country := (validateFieldValue "country"
        (validateFieldValue "country" x.country COUNTRY_OPTIONS) COUNTRY_OPTIONS),
      startDate := validateAndCorrectDate (validateAndCorrectDate x.startDate),
      endDate := validateAndCorrectDate (validateAndCorrectDate x.endDate) } : ExpEntry)
    = { x with
      positionType := validateFieldValue "positionType" x.positionType POSITION_TYPE_OPTIONS,
      country := validateFieldValue "country" x.country COUNTRY_OPTIONS,
      startDate := validateAndCorrectDate x.startDate,
      endDate := validateAndCorrectDate x.endDate }
  rw [hp, hc, validateAndCorrectDate_idem x.startDate, validateAndCorrectDate_idem x.endDate]

theorem langStep_idem (lang : LangEntry)
    (hok : catOk lang.proficiency LANGUAGE_PROFICIENCY_OPTIONS = true) :
    langStep (langStep lang) = langStep lang := by
  have hfix := catField_idem "proficiency" lang.proficiency LANGUAGE_PROFICIENCY_OPTIONS
    (by decide) (by decide) (by decide) (by decide) (by decide) (by decide) hok
  by_cases hc : ((validateFieldValue "proficiency" lang.proficiency
        LANGUAGE_PROFICIENCY_OPTIONS).truthy = true
      ∧ validateFieldValue "proficiency" lang.proficiency LANGUAGE_PROFICIENCY_OPTIONS
        ≠ .str "None")
  · have h1 : langStep lang = { lang with proficiency := (validateFieldValue "proficiency"
        lang.proficiency LANGUAGE_PROFICIENCY_OPTIONS) } := by
      simp only [langStep]
      rw [if_pos hc]
    rw [h1]
    simp only [langStep]
    rw [hfix, if_pos hc]
  · have h1 : langStep lang = { lang with proficiency := .undef } := by
      simp only [langStep]
      rw [if_neg hc]
    rw [h1]
    simp only [langStep]
    rw [show validateFieldValue "proficiency" JSVal.undef LANGUAGE_PROFICIENCY_OPTIONS
        = JSVal.null from by decide]
    rw [if_neg (by rintro ⟨htr, h2⟩; exact absurd htr (by decide))]

theorem durationStep_idem (v : JSVal) (hok : catOk v DURATION_OPTIONS = true) :
    durationStep (durationStep v) = durationStep v := by
  by_cases hv : v.truthy = true
  · have h1 : durationStep v = match fuzzyMatchToOptions v DURATION_OPTIONS with
        | some s => JSVal.str s
        | none => JSVal.null := by
      simp only [durationStep]
      rw [if_pos hv]
    cases hf : fuzzyMatchToOptions v DURATION_OPTIONS with
    | none =>
      rw [h1, hf]
      rfl
    | some s =>
      have hmem := catOk_mem hok hf
      have hs : s ≠ "" := optionValues_ne_empty hmem
      rw [h1, hf]
      show durationStep (.str s) = .str s
      have htr : JSVal.truthy (.str s) = true := by simp [JSVal.truthy, hs]
      simp only [durationStep]
      rw [if_pos htr, fuzzy_fixpoint (by decide) hmem]
  · have h1 : durationStep v = v := by
      simp only [durationStep]
      rw [if_neg hv]
    rw [h1]
    exact h1

theorem prefListStep_cons_none {opts : List FOpt} {x : JSVal} {xs : List JSVal}
    (hf : fuzzyMatchToOptions x opts = none) :
    prefListStep opts (x :: xs) = prefListStep opts xs := by
  simp [prefListStep, hf, JSVal.truthy]

theorem prefListStep_cons_some {opts : List FOpt} {x : JSVal} {xs : List JSVal} {s : String}
    (hf : fuzzyMatchToOptions x opts = some s) (hs : s ≠ "") :
    prefListStep opts (x :: xs) = .str s :: prefListStep opts xs := by
  simp [prefListStep, hf, JSVal.truthy, hs]

theorem prefListStep_idem (opts : List FOpt) (l : List JSVal)
    (hgood : goodOptions opts = true)
    (hok : ∀ v ∈ l, catOk v opts = true) :
    prefListStep opts (prefListStep opts l) = prefListStep opts l := by
  induction l with
  | nil => rfl
  | cons a t ih =>
    have ih' := ih (fun v hv => hok v (List.mem_cons_of_mem a hv))
    cases hf : fuzzyMatchToOptions a opts with
    | none =>
      rw [prefListStep_cons_none hf]
      exact ih'
    | some s =>
      have hmem := catOk_mem (hok a (List.mem_cons_self a t)) hf
      have hs := optionValues_ne_empty hmem
      rw [prefListStep_cons_some hf hs,
        prefListStep_cons_some (fuzzy_fixpoint hgood hmem) hs, ih']

theorem listMap_idem {α : Type} (f : α → α) (l : List α)
    (h : ∀ x ∈ l, f (f x) = f x) : (l.map f).map f = l.map f := by
  rw [List.map_map]
  exact List.map_congr_left h

theorem optMap_idem {α : Type} (f : α → α) (o : Option α)
    (h : ∀ x, o = some x → f (f x) = f x) : (o.map f).map f = o.map f := by
  cases o with
  | none => rfl
  | some x => simp [h x rfl]

theorem eduStep_degree_shape (e : EduEntry) :
    (eduStep e).1.degreeType = .str "MSc"
      ∨ (eduStep e).1.degreeType
          = validateFieldValue "degreeType" e.degreeType DEGREE_TYPE_OPTIONS := by
  simp only [eduStep]
  split
  · left; rfl
  · right; rfl

theorem eduStep_spec_shape (e : EduEntry) :
    (eduStep e).1.specificField = JSVal.null
      ∨ ∃ u, (eduStep e).1.specificField = .str u ∧ jsTrim u = u := by
  simp only [eduStep]
  split
  · rename_i s hs
    right
    exact ⟨jsTrim s, rfl, jsTrim_idem s⟩
  all_goals
    left
    rfl

theorem eduStep_fst_eta (e : EduEntry) :
    (eduStep e).1
      = { e with
          degreeType := (eduStep e).1.degreeType,
          generalField := validateFieldValue "generalField" e.generalField GENERAL_FIELD_OPTIONS,
          specificField := (eduStep e).1.specificField,
          country := validateFieldValue "country" e.country COUNTRY_OPTIONS,
          startDate := validateAndCorrectDate e.startDate,
          endDate := validateAndCorrectDate e.endDate } := rfl

theorem eduStep_idem (e : EduEntry)
    (h1 : catOk e.degreeType DEGREE_TYPE_OPTIONS = true)
    (h2 : catOk e.generalField GENERAL_FIELD_OPTIONS = true)
    (h3 : catOk e.country COUNTRY_OPTIONS = true) :
    eduStep (eduStep e).1 = ((eduStep e).1, []) := by
  have hgen := catField_idem "generalField" e.generalField GENERAL_FIELD_OPTIONS (by decide)
    (by decide) (by decide) (by decide) (by decide) (by decide) h2
  have hcty := catField_idem "country" e.country COUNTRY_OPTIONS (by decide)
    (by decide) (by decide) (by decide) (by decide) (by decide) h3
  have hsd := validateAndCorrectDate_idem e.startDate
  have hed := validateAndCorrectDate_idem e.endDate
  have hbad : ∀ x ∈ optionValues DEGREE_TYPE_OPTIONS,
      ¬((x = "AA" ∨ x = "AS" ∨ x = "AAS")
        ∧ masterKeywords.any (fun kw => incl (jsLower x) kw) = true) := by decide
  have hMSc : validateFieldValue "degreeType" (JSVal.str "MSc") DEGREE_TYPE_OPTIONS
      = JSVal.str "MSc" := by decide
  have hNull : validateFieldValue "degreeType" JSVal.null DEGREE_TYPE_OPTIONS
      = JSVal.null := by decide
  have hdeg_res := catField_shape "degreeType" e.degreeType DEGREE_TYPE_OPTIONS (by decide)
    (by decide) (by decide) (by decide) (by decide) h1
  rcases eduStep_spec_shape e with hS | ⟨u, hS, hu⟩ <;>
    rcases eduStep_degree_shape e with hD | hD
  · rw [eduStep_fst_eta e, hD, hS]
    simp only [eduStep, hgen, hcty, hsd, hed, hMSc]
    rw [if_neg (by decide)]
  · rcases hdeg_res with hdn | ⟨t, hdt, hmem⟩
    · rw [eduStep_fst_eta e, hD, hS, hdn]
      simp only [eduStep, hgen, hcty, hsd, hed, hNull]
    · have hfix : validateFieldValue "degreeType" (JSVal.str t) DEGREE_TYPE_OPTIONS
          = JSVal.str t := by
        have hv : ¬(JSVal.str t = JSVal.null ∨ JSVal.str t = JSVal.undef) := by simp
        rw [validateFieldValue_fuzzy "degreeType" (.str t) DEGREE_TYPE_OPTIONS (by decide)
          (by decide) (by decide) (by decide) (by decide) hv,
          fuzzy_fixpoint (by decide) hmem]
      rw [eduStep_fst_eta e, hD, hdt, hS]
      simp only [eduStep, hgen, hcty, hsd, hed, hfix]
      rw [if_neg (hbad t hmem)]
  · rw [eduStep_fst_eta e, hD, hS]
    simp only [eduStep, hgen, hcty, hsd, hed, hMSc, hu]
    rw [if_neg (by decide)]
  · rcases hdeg_res with hdn | ⟨t, hdt, hmem⟩
    · rw [eduStep_fst_eta e, hD, hS, hdn]
      simp only [eduStep, hgen, hcty, hsd, hed, hNull, hu]
    · have hfix : validateFieldValue "degreeType" (JSVal.str t) DEGREE_TYPE_OPTIONS
          = JSVal.str t := by
        have hv : ¬(JSVal.str t = JSVal.null ∨ JSVal.str t = JSVal.undef) := by simp
        rw [validateFieldValue_fuzzy "degreeType" (.str t) DEGREE_TYPE_OPTIONS (by decide)
          (by decide) (by decide) (by decide) (by decide) hv,
          fuzzy_fixpoint (by decide) hmem]
      rw [eduStep_fst_eta e, hD, hdt, hS]
      simp only [eduStep, hgen, hcty, hsd, hed, hfix, hu]
      rw [if_neg (hbad t hmem)]

theorem mapCollect_fst {α β : Type} (f : α → β × List String) (l : List α) :
    (mapCollect f l).1 = l.map fun x => (f x).1 := by
  induction l with
  | nil => rfl
  | cons a t ih => simp [mapCollect, ih]

theorem eduSectionStep_idem (o : Option (List EduEntry))
    (hok : (o.getD []).all (fun edu => catOk edu.degreeType DEGREE_TYPE_OPTIONS
        && catOk edu.generalField GENERAL_FIELD_OPTIONS
        && catOk edu.country COUNTRY_OPTIONS) = true) :
    (eduSectionStep (eduSectionStep o).1).1 = (eduSectionStep o).1 := by
  cases o with
  | none => rfl
  | some edus =>
    rw [List.all_eq_true] at hok
    have h1 : (eduSectionStep (some edus)).1 = some (edus.map fun x => (eduStep x).1) := by
      simp [eduSectionStep, mapCollect_fst]
    have h2 : (eduSectionStep (some (edus.map fun x => (eduStep x).1))).1
        = some ((edus.map fun x => (eduStep x).1).map fun x => (eduStep x).1) := by
      simp [eduSectionStep, mapCollect_fst]
    have h3 : ((edus.map fun x => (eduStep x).1).map fun x => (eduStep x).1)
        = edus.map fun x => (eduStep x).1 := by
      apply listMap_idem
      intro x hx
      have hx' := hok x hx
      rw [Bool.and_eq_true, Bool.and_eq_true] at hx'
      obtain ⟨⟨ha, hb⟩, hc⟩ := hx'
      show (eduStep (eduStep x).1).1 = (eduStep x).1
      rw [eduStep_idem x ha hb hc]
    rw [h1, h2, h3]

theorem softFilter_cons_none {a : SkillEntry} {t : List SkillEntry}
    (hn : softSkillNameLower a.name = none) :
    softFilter (a :: t) = none := by
  simp [softFilter, hn]

theorem softFilter_cons_throw {a : SkillEntry} {t : List SkillEntry} {nl : String}
    (hn : softSkillNameLower a.name = some nl) (hrec : softFilter t = none) :
    softFilter (a :: t) = none := by
  simp [softFilter, hn, hrec]

theorem softFilter_cons_blocked {a : SkillEntry} {t : List SkillEntry} {nl : String}
    {kept : List SkillEntry} {msgs : List String}
    (hn : softSkillNameLower a.name = some nl)
    (hb : notSoftSkills.any (fun blocked => nl = blocked) = true)
    (hrec : softFilter t = some (kept, msgs)) :
    softFilter (a :: t) = some (kept,
      ("Removed \"" ++ a.name.display ++ "\" from soft_skills (domain/business skill)")
        :: msgs) := by
  simp [softFilter, hn, hrec, hb]

theorem softFilter_cons_kept {a : SkillEntry} {t : List SkillEntry} {nl : String}
    {kept : List SkillEntry} {msgs : List String}
    (hn : softSkillNameLower a.name = some nl)
    (hb : notSoftSkills.any (fun blocked => nl = blocked) = false)
    (hrec : softFilter t = some (kept, msgs)) :
    softFilter (a :: t) = some (a :: kept, msgs) := by
  simp [softFilter, hn, hrec, hb]

theorem softFilter_kept_subset : ∀ (sks kept : List SkillEntry) (msgs : List String),
    softFilter sks = some (kept, msgs) → ∀ sk ∈ kept, sk ∈ sks := by
  intro sks
  induction sks with
  | nil =>
    intro kept msgs h sk hsk
    injection h with h'
    rw [Prod.mk.injEq] at h'
    rw [← h'.1] at hsk
    cases hsk
  | cons a t ih =>
    intro kept msgs h sk hsk
    cases hn : softSkillNameLower a.name with
    | none => rw [softFilter_cons_none hn] at h; cases h
    | some nl =>
      cases hrec : softFilter t with
      | none => rw [softFilter_cons_throw hn hrec] at h; cases h
      | some km =>
        obtain ⟨kept', msgs'⟩ := km
        cases hb : notSoftSkills.any (fun blocked => nl = blocked) with
        | true =>
          rw [softFilter_cons_blocked hn hb hrec] at h
          injection h with h'
          rw [Prod.mk.injEq] at h'
          rw [← h'.1] at hsk
          exact List.mem_cons_of_mem a (ih kept' msgs' hrec sk hsk)
        | false =>
          rw [softFilter_cons_kept hn hb hrec] at h
          injection h with h'
          rw [Prod.mk.injEq] at h'
          rw [← h'.1] at hsk
          rcases List.mem_cons.mp hsk with rfl | hsk'
          · exact List.mem_cons_self _ _
          · exact List.mem_cons_of_mem a (ih kept' msgs' hrec sk hsk')

theorem softFilter_kept_ok : ∀ (sks kept : List SkillEntry) (msgs : List String),
    softFilter sks = some (kept, msgs) → ∀ sk ∈ kept,
      ∃ nl, softSkillNameLower sk.name = some nl
        ∧ notSoftSkills.any (fun blocked => nl = blocked) = false := by
  intro sks
  induction sks with
  | nil =>
    intro kept msgs h sk hsk
    injection h with h'
    rw [Prod.mk.injEq] at h'
    rw [← h'.1] at hsk
    cases hsk
  | cons a t ih =>
    intro kept msgs h sk hsk
    cases hn : softSkillNameLower a.name with
    | none => rw [softFilter_cons_none hn] at h; cases h
    | some nl =>
      cases hrec : softFilter t with
      | none => rw [softFilter_cons_throw hn hrec] at h; cases h
      | some km =>
        obtain ⟨kept', msgs'⟩ := km
        cases hb : notSoftSkills.any (fun blocked => nl = blocked) with
        | true =>
          rw [softFilter_cons_blocked hn hb hrec] at h
          injection h with h'
          rw [Prod.mk.injEq] at h'
          rw [← h'.1] at hsk
          exact ih kept' msgs' hrec sk hsk
        | false =>
          rw [softFilter_cons_kept hn hb hrec] at h
          injection h with h'
          rw [Prod.mk.injEq] at h'
          rw [← h'.1] at hsk
          rcases List.mem_cons.mp hsk with rfl | hsk'
          · exact ⟨nl, hn, hb⟩
          · exact ih kept' msgs' hrec sk hsk'

theorem softFilter_of_ok : ∀ (l : List SkillEntry),
    (∀ sk ∈ l, ∃ nl, softSkillNameLower sk.name = some nl
      ∧ notSoftSkills.any (fun blocked => nl = blocked) = false) →
    softFilter l = some (l, []) := by
  intro l
  induction l with
  | nil => intro _; rfl
  | cons a t ih =>
    intro h
    obtain ⟨nl, hn, hb⟩ := h a (List.mem_cons_self a t)
    rw [softFilter_cons_kept hn hb (ih (fun sk hsk => h sk (List.mem_cons_of_mem a hsk)))]

theorem softSectionStep_idem (o : Option (List SkillEntry))
    (soft : Option (List SkillEntry)) (m7 : List String)
    (hok : (o.getD []).all (fun sk => catOk sk.level SKILL_PROFICIENCY_OPTIONS) = true)
    (h : softSectionStep o = some (soft, m7)) :
    softSectionStep soft = some (soft, []) := by
  cases o with
  | none =>
    have h' : (some (none, []) : Option (Option (List SkillEntry) × List String))
        = some (soft, m7) := h
    injection h' with h''
    rw [Prod.mk.injEq] at h''
    rw [← h''.1]
    rfl
  | some sks =>
    rw [List.all_eq_true] at hok
    simp only [softSectionStep] at h
    cases hrec : softFilter sks with
    | none => rw [hrec] at h; cases h
    | some km =>
      obtain ⟨kept, msgs⟩ := km
      rw [hrec] at h
      injection h with h'
      rw [Prod.mk.injEq] at h'
      obtain ⟨hsoft, hm⟩ := h'
      rw [← hsoft]
      have hsub := softFilter_kept_subset sks kept msgs hrec
      have hkeptok := softFilter_kept_ok sks kept msgs hrec
      have hok2 : ∀ sk ∈ kept.map skillLevelStep, ∃ nl,
          softSkillNameLower sk.name = some nl
            ∧ notSoftSkills.any (fun blocked => nl = blocked) = false := by
        intro sk hsk
        obtain ⟨sk0, hsk0, rfl⟩ := List.mem_map.mp hsk
        exact hkeptok sk0 hsk0
      simp only [softSectionStep]
      rw [softFilter_of_ok (kept.map skillLevelStep) hok2]
      show some (some ((kept.map skillLevelStep).map skillLevelStep), ([] : List String))
        = some (some (kept.map skillLevelStep), [])
      have hmap : (kept.map skillLevelStep).map skillLevelStep
          = kept.map skillLevelStep := by
        apply listMap_idem
        intro sk0 hsk0
        exact skillLevelStep_idem sk0 (hok sk0 (hsub sk0 hsk0))
      rw [hmap]

/-- C3 counterexample: the record validator is not idempotent on every
record. One pass over `usaLevelRecord` rewrites the technical-skill
level `"usa"` to the cross-domain synonym-table value `United States`;
a second pass fails to match that value against the skill-proficiency
options and nulls it, so the corrected record changes again. -/
theorem c3_counterexample :
    (validateAndCorrectData usaLevelRecord).map Prod.fst = some usaOutRecord
      ∧ (validateAndCorrectData usaOutRecord).map Prod.fst ≠ some usaOutRecord := by
  constructor
  · decide
  · decide

/-- C3 amended: the record validator is idempotent on synonym-safe
records: if every categorical slot of `r` is synonym-safe (whenever the
fuzzy matcher matches the slot's raw value, it returns a member of the
slot's own option set rather than a cross-domain synonym-table value),
then re-validating the corrected record returned by
`validateAndCorrectData r` reproduces that corrected record exactly,
across URL/email/country-code/date repairs, fuzzy categorical matching,
the degree-type guard, soft-skill filtering, and preference-list
element dropping. -/
theorem c3_validate_idempotent (r c : CandidateRecord) (log : List String)
    (hsafe : recordSynonymSafe r = true)
    (h : validateAndCorrectData r = some (c, log)) :
    (validateAndCorrectData c).map Prod.fst = some c := by
  have hsafe' := hsafe
  unfold recordSynonymSafe at hsafe'
  rw [Bool.and_eq_true, Bool.and_eq_true, Bool.and_eq_true, Bool.and_eq_true,
    Bool.and_eq_true, Bool.and_eq_true, Bool.and_eq_true] at hsafe'
  obtain ⟨⟨⟨⟨⟨⟨⟨hEdu, hExp⟩, hTech⟩, hSoft⟩, hLang⟩, hDur⟩, hLoc⟩, hInd⟩ := hsafe'
  simp only [validateAndCorrectData] at h
  split at h
  · cases h
  · rename_i soft m7 hsoftEq
    injection h with h'
    rw [Prod.mk.injEq] at h'
    obtain ⟨hc, hlog⟩ := h'
    subst hc
    have hsoft2 : softSectionStep soft = some (soft, []) :=
      softSectionStep_idem r.soft_skills soft m7 hSoft hsoftEq
    simp only [validateAndCorrectData]
    rw [hsoft2]
    rw [Option.map_some']
    dsimp only
    rw [Option.some.injEq, CandidateRecord.mk.injEq]
    refine ⟨?_, ?_, ?_, ?_, ?_, rfl, ?_, ?_, ?_, rfl, ?_, ?_, ?_, ?_, ?_, rfl⟩
    · exact urlFieldStep_idem "linkedinUrl" r.linkedinUrl
    · exact urlFieldStep_idem "githubUrl" r.githubUrl
    · exact urlFieldStep_idem "portfolioUrl" r.portfolioUrl
    · exact emailFieldStep_idem r.email
    · exact ccFieldStep_idem r.country_code
    · exact eduSectionStep_idem r.education_history hEdu
    · apply optMap_idem
      intro l hl
      apply listMap_idem
      intro x hx
      rw [hl, List.all_eq_true] at hExp
      have hx' := hExp x hx
      rw [Bool.and_eq_true] at hx'
      exact expStep_idem x hx'.1 hx'.2
    · apply optMap_idem
      intro l hl
      apply listMap_idem
      intro x hx
      rw [hl, List.all_eq_true] at hTech
      exact skillLevelStep_idem x (hTech x hx)
    · apply optMap_idem
      intro l hl
      apply listMap_idem
      intro x hx
      rw [hl, List.all_eq_true] at hLang
      exact langStep_idem x (hLang x hx)
    · apply optMap_idem
      intro l hl
      apply listMap_idem
      intro x hx
      exact certStep_idem x
    · exact durationStep_idem r.desired_duration_months hDur
    · apply optMap_idem
      intro l hl
      rw [hl, List.all_eq_true] at hLoc
      exact prefListStep_idem LOCATION_OPTIONS l (by decide) (fun v hv => hLoc v hv)
    · apply optMap_idem
      intro l hl
      rw [hl, List.all_eq_true] at hInd
      exact prefListStep_idem INDUSTRY_PREFERENCE_OPTIONS l (by decide)
        (fun v hv => hInd v hv)

/-- C3 witness: `richRecord` is synonym-safe; one validation pass yields
`richRecordOut` with the log `richLog`, and re-validating
`richRecordOut` reproduces it exactly. -/
theorem c3_validate_idempotent_witness :
    recordSynonymSafe richRecord = true
      ∧ (validateAndCorrectData richRecordOut).map Prod.fst = some richRecordOut :=
  ⟨by decide,
    c3_validate_idempotent richRecord richRecordOut richLog (by decide) (by decide)⟩

end CVSpec
